import Mathlib
set_option maxRecDepth 8000

/-
  Verification development for the pi-skill-picker matching-and-selection engine.

  The engine is embedded shallowly: strings are lists of characters, the
  floating-point scores of the JavaScript source are modelled as exact
  rationals, and the mutable session state is threaded explicitly.  Each
  definition mirrors one function of the source (scoreMatch, filterSkills,
  buildDisplayList, recordUsage, createPaletteState, nextSkillIndex,
  updateFilter, handlePaletteInput) under its original name.
-/

namespace SkillPicker

/-- Lowercasing used throughout the engine; models the toLowerCase calls of
the source on the ASCII data the program handles. -/
def lower (s : List Char) : List Char := s.map Char.toLower

/-- Whitespace test backing the trim operation, covering the whitespace
characters relevant to the embedded inputs. -/
def isSpaceChar (c : Char) : Bool := c == ' ' || c == '\t' || c == '\n' || c == '\r'

/-- Models the trim method of strings: drop whitespace from both ends. -/
def trimChars (s : List Char) : List Char :=
  ((s.dropWhile isSpaceChar).reverse.dropWhile isSpaceChar).reverse

/-- Index of the first occurrence of pat inside hay; models indexOf with
none in place of -1. -/
def idxOfSub (hay pat : List Char) : Option Nat :=
  if pat.isPrefixOf hay then some 0
  else
    match hay with
    | [] => none
    | _ :: tl => (idxOfSub tl pat).map (· + 1)

/-- First index whose element satisfies p; models findIndex with none in
place of -1. -/
def firstIdx? {α : Type} (p : α → Bool) : List α → Option Nat
  | [] => none
  | a :: l => if p a then some 0 else (firstIdx? p l).map (· + 1)

/-- Strict lexicographic comparison of character lists by code point; models
the string comparison used for alphabetical ordering in the source. -/
def lexLt : List Char → List Char → Bool
  | [], [] => false
  | [], _ :: _ => true
  | _ :: _, [] => false
  | a :: as, b :: bs => if a < b then true else if b < a then false else lexLt as bs

/-- Reflexive lexicographic order derived from lexLt. -/
def lexLe (a b : List Char) : Bool := !(lexLt b a)

/-- Walk of the deduplication, skipping elements already seen. -/
def dedupSeen (seen : List (List Char)) : List (List Char) → List (List Char)
  | [] => []
  | a :: l => if a ∈ seen then dedupSeen seen l else a :: dedupSeen (a :: seen) l

/-- Deduplication keeping the first occurrence of every element, matching
the iteration order of a JavaScript Set built from an array. -/
def dedupKeepFirst (l : List (List Char)) : List (List Char) :=
  dedupSeen [] l

/-- Stable insertion of an element into a sorted list: the new element is
placed before the first existing element it compares less-or-equal to. -/
def insertLe {α : Type} (le : α → α → Bool) (x : α) : List α → List α
  | [] => [x]
  | y :: ys => if le x y then x :: y :: ys else y :: insertLe le x ys

/-- Stable sort by the boolean relation le; models the stable sort of
JavaScript arrays under a consistent comparator. -/
def sortLe {α : Type} (le : α → α → Bool) (l : List α) : List α :=
  l.foldr (insertLe le) []

/-- Fuzzy scan of the scorer: walk the text once, matching query characters
in order, tracking the longest consecutive run and the total number of
matched characters.  Returns (unmatched query length, longest run, total
matched), mirroring the loop variables qi, maxRun and totalMatched. -/
def fuzzyScan : List Char → List Char → Nat → Nat → Nat → Nat × Nat × Nat
  | _, [], maxRun, _, totalMatched => (0, maxRun, totalMatched)
  | [], q :: qs, maxRun, _, totalMatched => ((q :: qs).length, maxRun, totalMatched)
  | c :: ts, qc :: qs, maxRun, currentRun, totalMatched =>
    if c = qc then fuzzyScan ts qs (max maxRun (currentRun + 1)) (currentRun + 1) (totalMatched + 1)
    else fuzzyScan ts (qc :: qs) maxRun 0 totalMatched

/-- Score of how well a query matches a text, translated from scoreMatch of
the source.  Tiers: exact 10000; prefix 5000 plus length bonus; substring
1000 plus length bonus plus word-boundary bonus; otherwise a gated fuzzy
subsequence score.  The ceiling of forty percent of the query length is
written as (2n+4)/5 in natural division. -/
def scoreMatch (query text : List Char) : ℚ :=
  if lower text = lower query then 10000
  else if (lower query).isPrefixOf (lower text) then
    5000 + (((lower query).length : ℚ) / ((lower text).length : ℚ)) * 100
  else
    match idxOfSub (lower text) (lower query) with
    | some subIdx =>
      1000 + (((lower query).length : ℚ) / ((lower text).length : ℚ)) * 100 +
        (if subIdx = 0 ∨ (lower text)[subIdx - 1]? = some '-' ∨ (lower text)[subIdx - 1]? = some ' '
         then 200 else 0)
    | none =>
      match fuzzyScan (lower text) (lower query) 0 0 0 with
      | (qrem, maxRun, totalMatched) =>
        if qrem ≠ 0 then 0
        else if (lower query).length ≤ 2 ∧ maxRun < (lower query).length then 0
        else if maxRun < (2 * (lower query).length + 4) / 5 then 0
        else 100 + (maxRun : ℚ) * 30 + ((totalMatched : ℚ) / ((lower text).length : ℚ)) * 50

/-- Tier in which scoreMatch places a candidate for a given query: 4 exact,
3 prefix, 2 substring, 1 positively scored subsequence, 0 no match. -/
def matchTier (query text : List Char) : Nat :=
  if lower text = lower query then 4
  else if (lower query).isPrefixOf (lower text) then 3
  else if (idxOfSub (lower text) (lower query)).isSome then 2
  else if 0 < scoreMatch query text then 1
  else 0

/-- Origin tag of a skill; localSrc stands for the source literal named
after the Lean keyword for local definitions. -/
inductive SkillSource where
  | home
  | localSrc
deriving DecidableEq, Repr

/-- Skill record of the catalog.  The field ns carries the namespace of the
source (namespace is a reserved word in Lean). -/
structure Skill where
  name : List Char
  ns : List Char
  description : List Char
  filePath : List Char
  source : SkillSource
deriving DecidableEq, Repr

/-- Usage record of the recency list. -/
structure SkillUsage where
  name : List Char
  ns : List Char
  timestamp : Nat
  count : Nat
deriving DecidableEq, Repr

/-- Display item: a namespace header or a skill entry tagged with its group
label.  The source uses one record type with a type discriminant and
optional fields; the two shapes it actually builds are exactly these. -/
inductive DisplayItem where
  | header (ns : List Char)
  | entry (skill : Skill) (ns : List Char)
deriving DecidableEq, Repr

/-- Terminal action returned by the palette input handler. -/
inductive PaletteAction where
  | select (skill : Skill)
  | unqueue (skill : Skill)
  | cancel
deriving DecidableEq, Repr

/-- Test whether a display item is a selectable skill entry. -/
def isSkillB : DisplayItem → Bool
  | .entry _ _ => true
  | .header _ => false

/-- Rank a list of skills by a per-skill score: keep positive scores and
sort descending, ties kept in list order.  Mirrors the map, filter, sort,
map pipeline used twice inside filterSkills.  The comparator of the source
subtracts scores, so an element precedes another exactly when its score is
at least as large. -/
def rankByScore (l : List Skill) (f : Skill → ℚ) : List Skill :=
  (sortLe (fun a b => decide (b.2 ≤ a.2))
    ((l.map (fun skill => (skill, f skill))).filter (fun p => decide (0 < p.2)))).map Prod.fst

/-- Branch of filterSkills for queries without a usable namespace colon,
operating on the lowercased trimmed query. -/
def filterNoColon (skills : List Skill) (lowerQuery : List Char) : List Skill :=
  if skills.filter (fun s => lower s.ns == lowerQuery) ≠ [] then
    skills.filter (fun s => lower s.ns == lowerQuery)
  else
    match (dedupKeepFirst (skills.map (fun s => lower s.ns))).filter
        (fun ns => lowerQuery.isPrefixOf ns) with
    | [ns0] => skills.filter (fun s => lower s.ns == ns0)
    | _ =>
      rankByScore skills (fun skill =>
        max (max (scoreMatch lowerQuery skill.name)
                 (scoreMatch lowerQuery (skill.ns ++ ':' :: skill.name) * (9 / 10)))
            (if (idxOfSub (lower skill.description) lowerQuery).isSome
             then 500 + ((lowerQuery.length : ℚ) / ((skill.description).length : ℚ)) * 100
             else 0))

/-- Filter the catalog by a query, translated from filterSkills of the
source: identity on blank queries; namespace-scoped matching when the query
holds a colon at a positive index; otherwise exact-namespace, then
unique-namespace-prefix, then scored name, namespaced-name and
substring-only description matching. -/
def filterSkills (skills : List Skill) (query : List Char) : List Skill :=
  if trimChars query = [] then skills
  else
    match idxOfSub query ([':']) with
    | some colonIdx =>
      if 0 < colonIdx then
        if trimChars (query.drop (colonIdx + 1)) = [] then
          skills.filter (fun s => (lower (query.take colonIdx)).isPrefixOf (lower s.ns))
        else
          rankByScore
            (skills.filter (fun s => (lower (query.take colonIdx)).isPrefixOf (lower s.ns)))
            (fun skill =>
              max (scoreMatch (trimChars (query.drop (colonIdx + 1))) skill.name)
                  (scoreMatch (trimChars (query.drop (colonIdx + 1))) skill.description * (3 / 10)))
      else filterNoColon skills (trimChars (lower query))
    | none => filterNoColon skills (trimChars (lower query))

/-- Namespace label of the recents section. -/
def recentTag : List Char := "recent".data

/-- Namespace literal that is always ordered last among groups. -/
def otherTag : List Char := "other".data

/-- Comparator of namespace groups: the group named other sinks below every
group, all remaining pairs compare lexicographically.  An element precedes
another in the sort exactly when this relation holds. -/
def nsLeB (a b : List Char) : Bool :=
  if a = otherTag then false else if b = otherTag then true else lexLe a b

/-- Recents section of the display list: a recent header followed by the
recency records resolved against the live catalog, or nothing when no
record resolves. -/
def recentBlock (skills : List Skill) (recents : List SkillUsage) : List DisplayItem :=
  if recents = [] then []
  else
    if recents.filterMap (fun r => skills.find? (fun s => s.name == r.name)) = [] then []
    else
      .header recentTag ::
        (recents.filterMap (fun r => skills.find? (fun s => s.name == r.name))).map
          (fun s => .entry s recentTag)

/-- Skills not shown in the recents section. -/
def remainingSkills (skills : List Skill) (recents : List SkillUsage) : List Skill :=
  skills.filter (fun s => !(recents.any (fun r => r.name == s.name)))

/-- Namespace keys of the grouped section, in sorted order: distinct
namespaces of the remaining skills in first-occurrence order, sorted with
the group named other last. -/
def nsKeysSorted (skills : List Skill) (recents : List SkillUsage) : List (List Char) :=
  sortLe nsLeB (dedupKeepFirst ((remainingSkills skills recents).map (fun s => s.ns)))

/-- Grouped section of the display list: per namespace, a header followed
by the skills of that namespace sorted by name. -/
def groupedBlock (skills : List Skill) (recents : List SkillUsage) : List DisplayItem :=
  (nsKeysSorted skills recents).flatMap (fun ns =>
    .header ns ::
      (sortLe (fun a b => lexLe a.name b.name)
        ((remainingSkills skills recents).filter (fun s => s.ns == ns))).map
        (fun s => .entry s ns))

/-- Build the browsing display list, translated from buildDisplayList of the
source: the recents section followed by the namespace groups. -/
def buildDisplayList (skills : List Skill) (recents : List SkillUsage) : List DisplayItem :=
  recentBlock skills recents ++ groupedBlock skills recents

/-- Maximum length of the recency list. -/
def MAX_RECENTS : Nat := 8

/-- Record one use of a skill, translated from recordUsage of the source:
the count of an existing record for the name is carried over and
incremented, every record of the name is removed, a fresh record is put at
the front, and the list is cut to the maximum length.  The clock read of
the source is passed in as the now argument; the disk write it triggers is
input and output outside the engine and is not modelled. -/
def recordUsage (recents : List SkillUsage) (skill : Skill) (now : Nat) : List SkillUsage :=
  (⟨skill.name, skill.ns, now,
      (match recents.find? (fun r => r.name == skill.name) with
        | some r => r.count
        | none => 0) + 1⟩ ::
    recents.filter (fun r => !(r.name == skill.name))).take MAX_RECENTS

/-- Session state of the palette overlay, translated from
PaletteRenderState of the source. -/
structure PaletteRenderState where
  allSkills : List Skill
  displayItems : List DisplayItem
  selectedIndex : Nat
  query : List Char
  queuedSkillName : Option (List Char)
  recents : List SkillUsage
deriving DecidableEq, Repr

/-- Input events of the palette.  The source receives raw terminal bytes
and classifies them with a key-matching library; the recognised keys and
the single-printable-character case are the constructors here, with other
standing for every chunk the source ignores. -/
inductive KeyEvent where
  | escape
  | enter
  | up
  | down
  | backspace
  | char (c : Char)
  | other
deriving DecidableEq, Repr

/-- Index of the first entry of a display list, with 0 when there is none;
models firstSkillIndex of the source combined with the fallback to 0 that
both call sites apply to its -1 result. -/
def firstSkillIndexN (items : List DisplayItem) : Nat :=
  (firstIdx? isSkillB items).getD 0

/-- Fresh session state, translated from createPaletteState of the
source. -/
def createPaletteState (skills : List Skill) (queuedSkillName : Option (List Char))
    (recents : List SkillUsage) : PaletteRenderState :=
  { allSkills := skills
    displayItems := buildDisplayList skills recents
    selectedIndex := firstSkillIndexN (buildDisplayList skills recents)
    query := []
    queuedSkillName := queuedSkillName
    recents := recents }

/-- First entry index at or after position i; models the forward scan of
the cursor-moving loop. -/
def findSkillFrom (items : List DisplayItem) (i : Nat) : Option Nat :=
  (firstIdx? isSkillB (items.drop i)).map (· + i)

/-- Last entry index strictly before position i; models the backward scan
of the cursor-moving loop. -/
def findSkillBefore (items : List DisplayItem) (i : Nat) : Option Nat :=
  (firstIdx? isSkillB (items.take i).reverse).map (fun j => (items.take i).length - 1 - j)

/-- Index of the last entry of the whole list; models the wrap-around scan
of the upward direction. -/
def lastSkillIdx (items : List DisplayItem) : Option Nat :=
  (firstIdx? isSkillB items.reverse).map (fun j => items.length - 1 - j)

/-- Next cursor position, translated from nextSkillIndex of the source;
down chooses the direction value one, up the direction value minus one.
Headers are skipped, the search wraps around, and 0 is returned when the
list has no entry at all. -/
def nextSkillIndex (items : List DisplayItem) (frm : Nat) (down : Bool) : Nat :=
  if down then
    match findSkillFrom items (frm + 1) with
    | some i => i
    | none => firstSkillIndexN items
  else
    match findSkillBefore items frm with
    | some i => i
    | none =>
      match lastSkillIdx items with
      | some i => i
      | none => 0

/-- Recompute the display list after a query edit, translated from
updateFilter of the source: a flat entry list in ranked order while the
trimmed query is non-empty, the grouped display list otherwise, and the
cursor reset to the first entry. -/
def updateFilter (s : PaletteRenderState) : PaletteRenderState :=
  { s with
    displayItems :=
      if trimChars s.query ≠ [] then
        (filterSkills s.allSkills s.query).map (fun skill => DisplayItem.entry skill skill.ns)
      else buildDisplayList (filterSkills s.allSkills s.query) s.recents
    selectedIndex :=
      firstSkillIndexN
        (if trimChars s.query ≠ [] then
          (filterSkills s.allSkills s.query).map (fun skill => DisplayItem.entry skill skill.ns)
        else buildDisplayList (filterSkills s.allSkills s.query) s.recents) }

/-- Handle one input event, translated from handlePaletteInput of the
source: the next state together with the terminal action, if any. -/
def handlePaletteInput (s : PaletteRenderState) (k : KeyEvent) :
    PaletteRenderState × Option PaletteAction :=
  match k with
  | .escape => (s, some .cancel)
  | .enter =>
    match s.displayItems[s.selectedIndex]? with
    | some (.entry skill _) =>
      if some skill.name = s.queuedSkillName then (s, some (.unqueue skill))
      else (s, some (.select skill))
    | _ => (s, none)
  | .up => ({ s with selectedIndex := nextSkillIndex s.displayItems s.selectedIndex false }, none)
  | .down => ({ s with selectedIndex := nextSkillIndex s.displayItems s.selectedIndex true }, none)
  | .backspace =>
    if s.query ≠ [] then (updateFilter { s with query := s.query.dropLast }, none)
    else (s, none)
  | .char c =>
    if 32 ≤ c.toNat then (updateFilter { s with query := s.query ++ [c] }, none)
    else (s, none)
  | .other => (s, none)

/-- Run a sequence of input events from a start state, keeping the state
component. -/
def runEvents (s : PaletteRenderState) (ks : List KeyEvent) : PaletteRenderState :=
  ks.foldl (fun st k => (handlePaletteInput st k).1) s

/-! Specification-side definitions, property predicates and concrete
fixtures used by the claims. -/

/-- Demo skill fizzy-cli of namespace tools. -/
def fizzySkill : Skill :=
  ⟨"fizzy-cli".data, "tools".data, "Desc for fizzy-cli".data, [], .home⟩

/-- Demo skill brave-search of namespace search. -/
def braveSkill : Skill :=
  ⟨"brave-search".data, "search".data, "Desc for brave-search".data, [], .home⟩

/-- Demo skill ad-creative of namespace marketing. -/
def adSkill : Skill :=
  ⟨"ad-creative".data, "marketing".data, "Desc for ad-creative".data, [], .home⟩

/-- Demo catalog of the specification examples. -/
def demoCatalog : List Skill := [fizzySkill, braveSkill, adSkill]

/-- Query of 31 characters for the tiering counterexample. -/
def q31 : List Char := 'a' :: List.replicate 30 'b'

/-- Substring-tier candidate for q31: the query embedded after 100 filler
characters. -/
def t1sub : List Char := List.replicate 100 'x' ++ q31

/-- Subsequence-tier candidate for q31: the first 30 query characters, an
interruption, then the last one. -/
def t2fuz : List Char := 'a' :: (List.replicate 29 'b' ++ ['!', 'b'])

/-- Query of 330 characters for the maximum-score counterexample. -/
def q330 : List Char := 'a' :: List.replicate 329 'b'

/-- Text of 331 characters on which q330 scores above 10000 through the
fuzzy tier. -/
def t331 : List Char := 'a' :: (List.replicate 328 'b' ++ ['!', 'b'])

/-- Fixture recency list holding one record named a with count 2. -/
def recentsW : List SkillUsage := [⟨"a".data, "x".data, 5, 2⟩]

/-- Fixture skill named a used to exercise recordUsage. -/
def skillW : Skill := ⟨"a".data, "x".data, [], [], .home⟩

/-- Definition following the words of the colon-scoped filtering claim:
split the query at its first colon into nsPart (before) and namePart
(after), restrict the catalog to skills whose lowercased namespace starts
with lowercased nsPart, return the restricted set unchanged when namePart
is empty after trimming, and otherwise keep exactly the restricted skills
whose maximum of the name score and three tenths of the description score
is positive, sorted descending by that score.  Queries without a colon are
outside the scope of the claim and are returned unchanged. -/
def filterColonSpec (skills : List Skill) (query : List Char) : List Skill :=
  match idxOfSub query ([':']) with
  | none => skills
  | some i =>
    if trimChars (query.drop (i + 1)) = [] then
      skills.filter (fun s => (lower (query.take i)).isPrefixOf (lower s.ns))
    else
      rankByScore
        (skills.filter (fun s => (lower (query.take i)).isPrefixOf (lower s.ns)))
        (fun skill =>
          max (scoreMatch (trimChars (query.drop (i + 1))) skill.name)
              (scoreMatch (trimChars (query.drop (i + 1))) skill.description * (3 / 10)))

/-- Skill with a description matching the query ad, used to separate the
claimed and the actual handling of queries that start with a colon. -/
def skZZ : Skill := ⟨"zz".data, "x".data, "ad stuff".data, [], .home⟩

/-- Skill whose namespace carries a leading space. -/
def skPadded : Skill := ⟨"n".data, " x".data, [], [], .home⟩

/-- Skill whose name starts with the letter x. -/
def skXylo : Skill := ⟨"xylophone".data, "z".data, [], [], .home⟩

/-- Group labels of the headers of a display list, in order. -/
def headerLabels (l : List DisplayItem) : List (List Char) :=
  l.filterMap (fun i => match i with
    | .header ns => some ns
    | .entry _ _ => none)

/-- Skills of the entries of a display list that carry a given group label,
in order. -/
def entriesTagged (ns : List Char) (l : List DisplayItem) : List Skill :=
  l.filterMap (fun i => match i with
    | .entry s ns2 => if ns2 = ns then some s else none
    | .header _ => none)

/-- A display list never shows an entry before the header of its group:
wherever an entry tagged ns occurs, a header labelled ns occurs earlier. -/
def entriesCovered (l : List DisplayItem) : Prop :=
  ∀ (l1 : List DisplayItem) (s : Skill) (ns : List Char) (l2 : List DisplayItem),
    l = l1 ++ DisplayItem.entry s ns :: l2 → DisplayItem.header ns ∈ l1

/-- Cursor invariant of a palette session: whenever the display list holds
at least one entry the cursor sits on an entry inside the list, and when it
holds no entry the cursor is zero and the list is in fact empty, so the
cursor never rests on a header. -/
def cursorInv (s : PaletteRenderState) : Prop :=
  (s.displayItems.any isSkillB = true →
    s.selectedIndex < s.displayItems.length ∧
    isSkillB (s.displayItems.getD s.selectedIndex (.header [])) = true) ∧
  (s.displayItems.any isSkillB = false →
    s.selectedIndex = 0 ∧ s.displayItems = [])

/-! Basic lemmas about the generic helpers. -/

theorem insertLe_perm {α : Type} (le : α → α → Bool) (x : α) (l : List α) :
    (insertLe le x l).Perm (x :: l) := by
  induction l with
  | nil => exact List.Perm.refl _
  | cons y ys ih =>
    by_cases h : le x y = true
    · simp [insertLe, h]
    · simp only [insertLe, h, if_false, Bool.false_eq_true]
      exact ((ih.cons y).trans (List.Perm.swap x y ys))

theorem sortLe_perm {α : Type} (le : α → α → Bool) (l : List α) :
    (sortLe le l).Perm l := by
  induction l with
  | nil => exact List.Perm.refl _
  | cons a l ih =>
    have : sortLe le (a :: l) = insertLe le a (sortLe le l) := rfl
    rw [this]
    exact (insertLe_perm le a (sortLe le l)).trans (ih.cons a)

theorem mem_sortLe {α : Type} {le : α → α → Bool} {l : List α} {x : α} :
    x ∈ sortLe le l ↔ x ∈ l := (sortLe_perm le l).mem_iff

theorem insertLe_pairwise {α : Type} {le : α → α → Bool}
    (htr : ∀ a b c, le a b = true → le b c = true → le a c = true)
    (x : α) (l : List α)
    (hxl : ∀ b ∈ l, le x b = true ∨ le b x = true ∨ x = b)
    (hl : l.Pairwise (fun a b => le a b = true ∨ a = b)) :
    (insertLe le x l).Pairwise (fun a b => le a b = true ∨ a = b) := by
  induction l with
  | nil => simp [insertLe]
  | cons y ys ih =>
    rcases List.pairwise_cons.mp hl with ⟨hy, hys⟩
    by_cases h : le x y = true
    · simp only [insertLe, h, if_true]
      refine List.pairwise_cons.mpr ⟨?_, hl⟩
      intro z hz
      rcases List.mem_cons.mp hz with rfl | hz
      · exact Or.inl h
      · rcases hy z hz with hyz | hyz
        · exact Or.inl (htr x y z h hyz)
        · subst hyz; exact Or.inl h
    · simp only [insertLe, h, if_false, Bool.false_eq_true]
      refine List.pairwise_cons.mpr ⟨?_, ?_⟩
      · intro z hz
        have hz' : z = x ∨ z ∈ ys := by
          have := (insertLe_perm le x ys).mem_iff.mp hz
          simpa using this
        rcases hz' with rfl | hz'
        · rcases hxl y (List.mem_cons_self y ys) with hxy | hyx | hEq
          · exact absurd hxy h
          · exact Or.inl hyx
          · exact Or.inr hEq.symm
        · exact hy z hz'
      · exact ih (fun b hb => hxl b (List.mem_cons_of_mem y hb)) hys

theorem sortLe_pairwise {α : Type} (le : α → α → Bool)
    (htr : ∀ a b c, le a b = true → le b c = true → le a c = true)
    (l : List α)
    (htot : ∀ a ∈ l, ∀ b ∈ l, le a b = true ∨ le b a = true ∨ a = b) :
    (sortLe le l).Pairwise (fun a b => le a b = true ∨ a = b) := by
  induction l with
  | nil => simp [sortLe]
  | cons a l ih =>
    have hstep : sortLe le (a :: l) = insertLe le a (sortLe le l) := rfl
    rw [hstep]
    refine insertLe_pairwise htr a (sortLe le l) ?_ ?_
    · intro b hb
      exact htot a (List.mem_cons_self a l) b (List.mem_cons_of_mem a (mem_sortLe.mp hb))
    · exact ih (fun x hx y hy =>
        htot x (List.mem_cons_of_mem a hx) y (List.mem_cons_of_mem a hy))

theorem lexLt_irrefl (a : List Char) : lexLt a a = false := by
  induction a with
  | nil => rfl
  | cons c cs ih => simp [lexLt, ih]

theorem lexLt_asymm : ∀ a b : List Char, lexLt a b = true → lexLt b a = false
  | [], [], h => by simp [lexLt] at h
  | [], _ :: _, _ => rfl
  | _ :: _, [], h => by simp [lexLt] at h
  | a :: as, b :: bs, h => by
    simp only [lexLt] at h ⊢
    rcases lt_trichotomy a b with hab | hab | hab
    · simp [hab, not_lt.mpr (le_of_lt hab)]
    · subst hab
      simp only [lt_irrefl, if_false] at h ⊢
      exact lexLt_asymm as bs h
    · simp [hab, not_lt.mpr (le_of_lt hab)] at h

theorem lexLt_connex : ∀ a b : List Char, lexLt a b = false → lexLt b a = false → a = b
  | [], [], _, _ => rfl
  | [], _ :: _, h, _ => by simp [lexLt] at h
  | _ :: _, [], _, h => by simp [lexLt] at h
  | a :: as, b :: bs, h1, h2 => by
    simp only [lexLt] at h1 h2
    rcases lt_trichotomy a b with hab | hab | hab
    · simp [hab] at h1
    · subst hab
      simp only [lt_irrefl, if_false] at h1 h2
      rw [lexLt_connex as bs h1 h2]
    · simp [hab] at h2

theorem lexLt_trans : ∀ a b c : List Char, lexLt a b = true → lexLt b c = true →
    lexLt a c = true
  | [], b, [], _, h2 => by cases b <;> simp [lexLt] at h2
  | [], _, _ :: _, _, _ => rfl
  | _ :: _, [], _, h1, _ => by simp [lexLt] at h1
  | _ :: _, _ :: _, [], _, h2 => by simp [lexLt] at h2
  | a :: as, b :: bs, c :: cs, h1, h2 => by
    simp only [lexLt] at h1 h2 ⊢
    rcases lt_trichotomy a b with hab | hab | hab
    · rcases lt_trichotomy b c with hbc | hbc | hbc
      · simp [lt_trans hab hbc]
      · subst hbc; simp [hab]
      · simp [hbc, not_lt.mpr (le_of_lt hbc)] at h2
    · subst hab
      simp only [lt_irrefl, if_false] at h1
      rcases lt_trichotomy a c with hac | hac | hac
      · simp [hac]
      · subst hac
        simp only [lt_irrefl, if_false] at h2 ⊢
        exact lexLt_trans as bs cs h1 h2
      · simp [hac, not_lt.mpr (le_of_lt hac)] at h2
    · simp [hab, not_lt.mpr (le_of_lt hab)] at h1

theorem lexLe_trans {a b c : List Char} (h1 : lexLe a b = true) (h2 : lexLe b c = true) :
    lexLe a c = true := by
  simp only [lexLe, Bool.not_eq_true'] at h1 h2 ⊢
  cases hca : lexLt c a with
  | false => rfl
  | true =>
    cases hbc : lexLt b c with
    | true => exact absurd (lexLt_trans b c a hbc hca) (by simp [h1])
    | false =>
      have hbceq := lexLt_connex b c hbc h2
      subst hbceq
      exact absurd hca (by simp [h1])

theorem lexLe_total (a b : List Char) : lexLe a b = true ∨ lexLe b a = true := by
  simp only [lexLe, Bool.not_eq_true']
  cases hab : lexLt a b with
  | false => exact Or.inr rfl
  | true => exact Or.inl (lexLt_asymm a b hab)

theorem lexLe_refl (a : List Char) : lexLe a a = true := by
  simp [lexLe, lexLt_irrefl]

theorem nsLeB_trans : ∀ a b c : List Char, nsLeB a b = true → nsLeB b c = true →
    nsLeB a c = true := by
  intro a b c h1 h2
  unfold nsLeB at h1 h2 ⊢
  by_cases ha : a = otherTag
  · simp [ha] at h1
  · by_cases hb : b = otherTag
    · simp [hb] at h2
    · by_cases hc : c = otherTag
      · simp [ha, hc]
      · simp only [ha, hb, hc, if_false] at h1 h2 ⊢
        exact lexLe_trans h1 h2

theorem nsLeB_total (a b : List Char) (hab : a ≠ b) :
    nsLeB a b = true ∨ nsLeB b a = true := by
  unfold nsLeB
  by_cases ha : a = otherTag
  · subst ha
    have hb : b ≠ otherTag := fun h => hab h.symm
    simp [hb, Ne.symm hab]
  · by_cases hb : b = otherTag
    · simp [ha, hb]
    · simp only [ha, hb, if_false]
      exact lexLe_total a b

theorem firstIdx?_some {α : Type} {p : α → Bool} :
    ∀ {l : List α} {i : Nat}, firstIdx? p l = some i →
      ∃ x, l[i]? = some x ∧ p x = true := by
  intro l
  induction l with
  | nil => intro i h; simp [firstIdx?] at h
  | cons a l ih =>
    intro i h
    by_cases hpa : p a = true
    · simp only [firstIdx?, hpa, if_true, Option.some.injEq] at h
      subst h
      exact ⟨a, by simp, hpa⟩
    · simp only [firstIdx?, hpa, if_false, Bool.false_eq_true, Option.map_eq_some'] at h
      rcases h with ⟨j, hj, rfl⟩
      rcases ih hj with ⟨x, hx, hpx⟩
      exact ⟨x, by simpa using hx, hpx⟩

theorem false_of_firstIdx?_none {α : Type} {p : α → Bool} :
    ∀ {l : List α}, firstIdx? p l = none → ∀ x ∈ l, p x = false := by
  intro l
  induction l with
  | nil => intro _ x hx; simp at hx
  | cons a l ih =>
    intro h x hx
    by_cases hpa : p a = true
    · simp [firstIdx?, hpa] at h
    · simp only [firstIdx?, hpa, if_false, Bool.false_eq_true, Option.map_eq_none'] at h
      rcases List.mem_cons.mp hx with rfl | hx
      · exact Bool.eq_false_iff.mpr hpa
      · exact ih h x hx

theorem firstIdx?_isSome_of_mem {α : Type} {p : α → Bool} {l : List α} {x : α}
    (hx : x ∈ l) (hpx : p x = true) : (firstIdx? p l).isSome := by
  cases h : firstIdx? p l with
  | some i => rfl
  | none => exact absurd hpx (by simp [false_of_firstIdx?_none h x hx])

theorem firstIdx?_lt_length {α : Type} {p : α → Bool} {l : List α} {i : Nat}
    (h : firstIdx? p l = some i) : i < l.length := by
  rcases firstIdx?_some h with ⟨x, hx, _⟩
  by_contra hlen
  rw [List.getElem?_eq_none (by omega)] at hx
  exact Option.noConfusion hx

theorem idxOfSub_some :
    ∀ {hay : List Char} {pat : List Char} {i : Nat}, idxOfSub hay pat = some i →
      pat.isPrefixOf (hay.drop i) = true ∧ pat.length + i ≤ hay.length := by
  intro hay
  induction hay with
  | nil =>
    intro pat i h
    unfold idxOfSub at h
    by_cases hp : pat.isPrefixOf [] = true
    · simp only [hp, if_true, Option.some.injEq] at h
      subst h
      exact ⟨hp, by simpa using ( List.isPrefixOf_iff_prefix.mp hp).length_le⟩
    · simp [hp] at h
  | cons c tl ih =>
    intro pat i h
    unfold idxOfSub at h
    by_cases hp : pat.isPrefixOf (c :: tl) = true
    · simp only [hp, if_true, Option.some.injEq] at h
      subst h
      exact ⟨hp, by simpa using ( List.isPrefixOf_iff_prefix.mp hp).length_le⟩
    · simp only [hp, if_false, Bool.false_eq_true, Option.map_eq_some'] at h
      rcases h with ⟨j, hj, rfl⟩
      rcases ih hj with ⟨h1, h2⟩
      constructor
      · simpa using h1
      · simp only [List.length_cons]
        omega

theorem idxOfSub_none_of_not_mem {hay : List Char} {c : Char}
    (h : c ∉ hay) : idxOfSub hay [c] = none := by
  induction hay with
  | nil => rfl
  | cons a tl ih =>
    have hca : ¬ (c = a) := fun hEq => h (hEq ▸ List.mem_cons_self a tl)
    have hpre : ([c]).isPrefixOf (a :: tl) = false := by
      simp [List.isPrefixOf, beq_iff_eq]
      exact fun hEq => absurd hEq hca
    unfold idxOfSub
    rw [hpre]
    simp only [Bool.false_eq_true, if_false, Option.map_eq_none']
    exact ih (fun hc => h (List.mem_cons_of_mem a hc))

theorem mem_dropWhile_of_mem {p : Char → Bool} :
    ∀ {l : List Char} {c : Char}, c ∈ l → p c = false → c ∈ l.dropWhile p := by
  intro l
  induction l with
  | nil => intro c h; simp at h
  | cons a tl ih =>
    intro c h hpc
    rcases List.mem_cons.mp h with rfl | h
    · rw [List.dropWhile_cons, hpc]
      simp
    · rw [List.dropWhile_cons]
      by_cases hpa : p a = true
      · simp only [hpa, if_true]
        exact ih h hpc
      · simp only [hpa, if_false, Bool.false_eq_true]
        exact List.mem_cons_of_mem a h

theorem mem_trimChars_of_mem {l : List Char} {c : Char}
    (h : c ∈ l) (hpc : isSpaceChar c = false) : c ∈ trimChars l := by
  unfold trimChars
  rw [List.mem_reverse]
  apply mem_dropWhile_of_mem _ hpc
  rw [List.mem_reverse]
  exact mem_dropWhile_of_mem h hpc

theorem trimChars_ne_nil_of_colon {q : List Char} (h : (':') ∈ q) :
    trimChars q ≠ [] := by
  have : (':') ∈ trimChars q := mem_trimChars_of_mem h (by decide)
  exact List.ne_nil_of_mem this

theorem mem_of_mem_dedupSeen :
    ∀ {l : List (List Char)} {seen : List (List Char)} {x : List Char},
      x ∈ dedupSeen seen l → x ∈ l := by
  intro l
  induction l with
  | nil => intro seen x h; simp [dedupSeen] at h
  | cons a tl ih =>
    intro seen x h
    by_cases ha : a ∈ seen
    · simp only [dedupSeen, ha, if_true] at h
      exact List.mem_cons_of_mem a (ih h)
    · simp only [dedupSeen, ha, if_false] at h
      rcases List.mem_cons.mp h with rfl | h
      · exact List.mem_cons_self _ _
      · exact List.mem_cons_of_mem a (ih h)

theorem mem_of_mem_dedupKeepFirst {l : List (List Char)} {x : List Char}
    (h : x ∈ dedupKeepFirst l) : x ∈ l :=
  mem_of_mem_dedupSeen h

theorem not_mem_seen_of_mem_dedupSeen :
    ∀ {l : List (List Char)} {seen : List (List Char)} {x : List Char},
      x ∈ dedupSeen seen l → x ∉ seen := by
  intro l
  induction l with
  | nil => intro seen x h; simp [dedupSeen] at h
  | cons a tl ih =>
    intro seen x h
    by_cases ha : a ∈ seen
    · simp only [dedupSeen, ha, if_true] at h
      exact ih h
    · simp only [dedupSeen, ha, if_false] at h
      rcases List.mem_cons.mp h with rfl | h
      · exact ha
      · intro hx
        exact ih h (List.mem_cons_of_mem a hx)

theorem nodup_dedupSeen :
    ∀ (l seen : List (List Char)), (dedupSeen seen l).Nodup := by
  intro l
  induction l with
  | nil => intro seen; simp [dedupSeen]
  | cons a tl ih =>
    intro seen
    by_cases ha : a ∈ seen
    · simp only [dedupSeen, ha, if_true]
      exact ih seen
    · simp only [dedupSeen, ha, if_false]
      refine List.nodup_cons.mpr ⟨?_, ih (a :: seen)⟩
      intro hmem
      exact not_mem_seen_of_mem_dedupSeen hmem (List.mem_cons_self a seen)

theorem nodup_dedupKeepFirst (l : List (List Char)) : (dedupKeepFirst l).Nodup :=
  nodup_dedupSeen l []

theorem fuzzyScan_bounds :
    ∀ (t q : List Char) (mr cr tm : Nat),
      (fuzzyScan t q mr cr tm).2.1 ≤ max mr (cr + q.length) ∧
      (fuzzyScan t q mr cr tm).2.2 ≤ tm + t.length ∧
      (fuzzyScan t q mr cr tm).2.2 ≤ tm + q.length := by
  intro t
  induction t with
  | nil =>
    intro q mr cr tm
    cases q with
    | nil => simp [fuzzyScan]
    | cons qc qs => simp [fuzzyScan]
  | cons c ts ih =>
    intro q mr cr tm
    cases q with
    | nil => simp [fuzzyScan]
    | cons qc qs =>
      by_cases h : c = qc
      · simp only [fuzzyScan, h, if_true]
        rcases ih qs (max mr (cr + 1)) (cr + 1) (tm + 1) with ⟨h1, h2, h3⟩
        refine ⟨?_, ?_, ?_⟩
        · refine h1.trans ?_
          simp only [List.length_cons]
          apply max_le
          · exact max_le (le_max_left _ _) (le_max_of_le_right (by omega))
          · apply le_max_of_le_right
            omega
        · refine h2.trans ?_
          simp only [List.length_cons]
          omega
        · refine h3.trans ?_
          simp only [List.length_cons]
          omega
      · simp only [fuzzyScan, h, if_false]
        rcases ih (qc :: qs) mr 0 tm with ⟨h1, h2, h3⟩
        refine ⟨?_, ?_, ?_⟩
        · refine h1.trans ?_
          apply max_le
          · exact le_max_left _ _
          · apply le_max_of_le_right
            omega
        · refine h2.trans ?_
          simp only [List.length_cons]
          omega
        · exact h3

/-! Branch equations and bounds for the scorer. -/

theorem length_lower (s : List Char) : (lower s).length = s.length :=
  List.length_map _ _

theorem natCast_div_nonneg (a b : ℕ) : (0 : ℚ) ≤ (a : ℚ) / (b : ℚ) := by
  positivity

theorem natCast_div_le_one {a b : ℕ} (h : a ≤ b) : (a : ℚ) / (b : ℚ) ≤ 1 := by
  rcases Nat.eq_zero_or_pos b with hb | hb
  · subst hb
    simp [Nat.le_zero.mp h]
  · rw [div_le_one (by exact_mod_cast hb)]
    exact_mod_cast h

theorem nil_isPrefixOf (l : List Char) : ([] : List Char).isPrefixOf l = true := by
  cases l <;> rfl

theorem scoreMatch_eq_exact {q t : List Char} (h : lower t = lower q) :
    scoreMatch q t = 10000 := by
  simp only [scoreMatch, if_pos h]

theorem scoreMatch_eq_prefixTier {q t : List Char} (h1 : ¬ lower t = lower q)
    (h2 : (lower q).isPrefixOf (lower t) = true) :
    scoreMatch q t =
      5000 + (((lower q).length : ℚ) / ((lower t).length : ℚ)) * 100 := by
  simp only [scoreMatch, if_neg h1, h2, if_true]

theorem scoreMatch_eq_substring {q t : List Char} {i : Nat} (h1 : ¬ lower t = lower q)
    (h2 : (lower q).isPrefixOf (lower t) = false)
    (h3 : idxOfSub (lower t) (lower q) = some i) :
    scoreMatch q t =
      1000 + (((lower q).length : ℚ) / ((lower t).length : ℚ)) * 100 +
        (if i = 0 ∨ (lower t)[i - 1]? = some '-' ∨ (lower t)[i - 1]? = some ' '
         then 200 else 0) := by
  simp only [scoreMatch, if_neg h1, h2, Bool.false_eq_true, if_false, h3]

theorem scoreMatch_eq_fuzzy {q t : List Char} {m n : Nat} (h1 : ¬ lower t = lower q)
    (h2 : (lower q).isPrefixOf (lower t) = false)
    (h3 : idxOfSub (lower t) (lower q) = none)
    (hscan : fuzzyScan (lower t) (lower q) 0 0 0 = (0, m, n))
    (hgate1 : ¬ ((lower q).length ≤ 2 ∧ m < (lower q).length))
    (hgate2 : ¬ (m < (2 * (lower q).length + 4) / 5)) :
    scoreMatch q t =
      100 + (m : ℚ) * 30 + ((n : ℚ) / ((lower t).length : ℚ)) * 50 := by
  simp only [scoreMatch, if_neg h1, h2, Bool.false_eq_true, if_false, h3, hscan]
  rw [if_neg (by simp), if_neg hgate1, if_neg hgate2]

theorem scoreMatch_fuzzy_le {q t : List Char} (h1 : ¬ lower t = lower q)
    (h2 : (lower q).isPrefixOf (lower t) = false)
    (h3 : idxOfSub (lower t) (lower q) = none) :
    scoreMatch q t ≤ 150 + 30 * (q.length : ℚ) := by
  rcases hscan : fuzzyScan (lower t) (lower q) 0 0 0 with ⟨qrem, mr, tm⟩
  have hb := fuzzyScan_bounds (lower t) (lower q) 0 0 0
  rw [hscan] at hb
  simp only [Nat.zero_add, Nat.max_eq_right (Nat.zero_le _)] at hb
  rcases hb with ⟨hmr, htm, -⟩
  have hmr' : mr ≤ q.length := by
    have := length_lower q
    omega
  have hq : (0 : ℚ) ≤ 30 * (q.length : ℚ) := by positivity
  simp only [scoreMatch, if_neg h1, h2, Bool.false_eq_true, if_false, h3, hscan]
  split_ifs with hz hg1 hg2
  · linarith
  · linarith
  · linarith
  · have hrat : (tm : ℚ) / ((lower t).length : ℚ) ≤ 1 := natCast_div_le_one (by simpa using htm)
    have hmrq : (mr : ℚ) ≤ (q.length : ℚ) := by exact_mod_cast hmr'
    nlinarith [natCast_div_nonneg tm ((lower t).length)]

theorem matchTier_le_4 (q t : List Char) : matchTier q t ≤ 4 := by
  unfold matchTier
  split_ifs <;> norm_num

theorem lower_eq_of_tier4 {q t : List Char} (h : matchTier q t = 4) :
    lower t = lower q := by
  unfold matchTier at h
  split_ifs at h with hA hB hC hD
  · exact hA
  all_goals omega

theorem score_of_tier4 {q t : List Char} (h : matchTier q t = 4) :
    scoreMatch q t = 10000 :=
  scoreMatch_eq_exact (lower_eq_of_tier4 h)

theorem score_of_tier3 {q t : List Char} (h : matchTier q t = 3) :
    5000 ≤ scoreMatch q t ∧ scoreMatch q t ≤ 5100 := by
  unfold matchTier at h
  split_ifs at h with hA hB hC hD
  any_goals omega
  rw [scoreMatch_eq_prefixTier hA hB]
  have hle : (lower q).length ≤ (lower t).length :=
    ( List.isPrefixOf_iff_prefix.mp hB).length_le
  have h0 := natCast_div_nonneg ((lower q).length) ((lower t).length)
  have h1 := natCast_div_le_one (a := (lower q).length) (b := (lower t).length) hle
  constructor <;> nlinarith

theorem score_of_tier2 {q t : List Char} (h : matchTier q t = 2) :
    1000 < scoreMatch q t ∧ scoreMatch q t ≤ 1300 := by
  unfold matchTier at h
  split_ifs at h with hA hB hC hD
  any_goals omega
  rcases Option.isSome_iff_exists.mp hC with ⟨i, hi⟩
  have hB' : (lower q).isPrefixOf (lower t) = false := by
    cases hb : (lower q).isPrefixOf (lower t)
    · rfl
    · exact absurd hb hB
  rw [scoreMatch_eq_substring hA hB' hi]
  have hq : (lower q) ≠ [] := by
    intro hq
    rw [hq] at hB'
    rw [nil_isPrefixOf] at hB'
    exact Bool.noConfusion hB'
  have hq1 : 1 ≤ (lower q).length := by
    cases hlq : lower q
    · exact absurd hlq hq
    · simp
  rcases idxOfSub_some hi with ⟨-, hlen⟩
  have hle : (lower q).length ≤ (lower t).length := by omega
  have hpos : (0 : ℚ) < ((lower q).length : ℚ) / ((lower t).length : ℚ) := by
    apply div_pos
    · exact_mod_cast hq1
    · exact_mod_cast Nat.lt_of_lt_of_le hq1 hle
  have h1 := natCast_div_le_one (a := (lower q).length) (b := (lower t).length) hle
  constructor <;> (split_ifs <;> nlinarith)

theorem score_of_tier1 {q t : List Char} (h : matchTier q t = 1) :
    0 < scoreMatch q t ∧ scoreMatch q t ≤ 150 + 30 * (q.length : ℚ) := by
  unfold matchTier at h
  split_ifs at h with hA hB hC hD
  any_goals omega
  have hB' : (lower q).isPrefixOf (lower t) = false := by
    cases hb : (lower q).isPrefixOf (lower t)
    · rfl
    · exact absurd hb hB
  have hC' : idxOfSub (lower t) (lower q) = none :=
    Option.not_isSome_iff_eq_none.mp hC
  exact ⟨hD, scoreMatch_fuzzy_le hA hB' hC'⟩

theorem score_of_tier0 {q t : List Char} (h : matchTier q t = 0) :
    scoreMatch q t ≤ 0 := by
  unfold matchTier at h
  split_ifs at h with hA hB hC hD
  exact le_of_not_lt hD

/-! Concrete fixtures used by witnesses and counterexamples. -/

/-- C1 (amended): for every query of at most 28 characters, any two
candidates that scoreMatch places in different tiers among exact, prefix,
pure substring and pure subsequence compare strictly: the higher tier
scores strictly greater.  For longer queries the subsequence tier can
overtake the substring tier, see the counterexample. -/
theorem c1_tiering_monotonic (q t1 t2 : List Char) (hq : q.length ≤ 28)
    (h2pos : 1 ≤ matchTier q t2) (hlt : matchTier q t2 < matchTier q t1) :
    scoreMatch q t2 < scoreMatch q t1 := by
  have h14 := matchTier_le_4 q t1
  have hqQ : ((q.length : ℚ)) ≤ 28 := by exact_mod_cast hq
  have ht2 : matchTier q t2 = 1 ∨ matchTier q t2 = 2 ∨ matchTier q t2 = 3 := by omega
  have ht1 : matchTier q t1 = 2 ∨ matchTier q t1 = 3 ∨ matchTier q t1 = 4 := by omega
  rcases ht2 with h2 | h2 | h2 <;> rcases ht1 with h1 | h1 | h1
  · rcases score_of_tier1 h2 with ⟨-, hb2⟩
    rcases score_of_tier2 h1 with ⟨ha1, -⟩
    linarith
  · rcases score_of_tier1 h2 with ⟨-, hb2⟩
    rcases score_of_tier3 h1 with ⟨ha1, -⟩
    linarith
  · rcases score_of_tier1 h2 with ⟨-, hb2⟩
    rw [score_of_tier4 h1]
    linarith
  · omega
  · rcases score_of_tier2 h2 with ⟨-, hb2⟩
    rcases score_of_tier3 h1 with ⟨ha1, -⟩
    linarith
  · rcases score_of_tier2 h2 with ⟨-, hb2⟩
    rw [score_of_tier4 h1]
    linarith
  · omega
  · omega
  · rcases score_of_tier3 h2 with ⟨-, hb2⟩
    rw [score_of_tier4 h1]
    linarith

/-- Witness for C1: the two-character query ab places the candidate ab in
the exact tier and the candidate xab in the substring tier, and the scores
compare strictly. -/
theorem c1_tiering_monotonic_witness :
    scoreMatch ("ab".data) ("xab".data) < scoreMatch ("ab".data) ("ab".data) :=
  c1_tiering_monotonic ("ab".data) ("ab".data) ("xab".data) (by decide) (by decide)
    (by decide)

/-- Counterexample to C1 as frozen: for the 31-character query q31 the
candidate t1sub sits in the pure substring tier and t2fuz in the pure
subsequence tier, yet the substring candidate scores strictly lower. -/
theorem c1_counterexample :
    matchTier q31 t1sub = 2 ∧ matchTier q31 t2fuz = 1 ∧
      scoreMatch q31 t1sub < scoreMatch q31 t2fuz := by
  have e1 : scoreMatch q31 t1sub = 1000 + ((31 : ℚ) / 131) * 100 := by
    rw [scoreMatch_eq_substring (i := 100) (by decide) (by decide) (by decide)]
    rw [if_neg (by decide)]
    rw [show ((lower q31).length) = 31 from by decide,
      show ((lower t1sub).length) = 131 from by decide]
    norm_num
  have e2 : scoreMatch q31 t2fuz = 100 + (30 : ℚ) * 30 + ((31 : ℚ) / 32) * 50 := by
    rw [scoreMatch_eq_fuzzy (m := 30) (n := 31) (by decide) (by decide) (by decide)
      (by decide) (by decide) (by decide)]
    rw [show ((lower t2fuz).length) = 32 from by decide]
    norm_num
  have hpos : 0 < scoreMatch q31 t2fuz := by
    rw [e2]
    norm_num
  refine ⟨by decide, ?_, ?_⟩
  · unfold matchTier
    rw [if_neg (by decide), if_neg (by decide), if_neg (by decide), if_pos hpos]
  · rw [e1, e2]
    norm_num

/-- C2 (amended): scoreMatch gives every pair of equal strings, and more
generally every pair with equal lowercasings, exactly 10000; and every pair
whose lowercasings differ scores strictly below 10000 provided the query
has at most 328 characters.  Longer queries can exceed 10000 through the
fuzzy tier, and pairs of distinct strings with equal lowercasings reach
10000 exactly, see the counterexample. -/
theorem c2_max_score :
    (∀ t : List Char, scoreMatch t t = 10000) ∧
    (∀ q t : List Char, lower q = lower t → scoreMatch q t = 10000) ∧
    (∀ q t : List Char, lower q ≠ lower t → q.length ≤ 328 →
      scoreMatch q t < 10000) := by
  refine ⟨fun t => scoreMatch_eq_exact rfl, fun q t h => scoreMatch_eq_exact h.symm, ?_⟩
  intro q t hne hlen
  have h4 := matchTier_le_4 q t
  have hcases : matchTier q t = 0 ∨ matchTier q t = 1 ∨ matchTier q t = 2 ∨
      matchTier q t = 3 ∨ matchTier q t = 4 := by omega
  have hlenQ : ((q.length : ℚ)) ≤ 328 := by exact_mod_cast hlen
  rcases hcases with h | h | h | h | h
  · have := score_of_tier0 h
    linarith
  · rcases score_of_tier1 h with ⟨-, hb⟩
    linarith
  · rcases score_of_tier2 h with ⟨-, hb⟩
    linarith
  · rcases score_of_tier3 h with ⟨-, hb⟩
    linarith
  · exact absurd (lower_eq_of_tier4 h).symm hne

/-- Witness for C2: the singleton string x scores 10000 against itself, and
the pair of distinct lowercasings a and b scores below 10000. -/
theorem c2_max_score_witness :
    scoreMatch ("x".data) ("x".data) = 10000 ∧
      scoreMatch ("a".data) ("b".data) < 10000 :=
  ⟨c2_max_score.1 ("x".data), c2_max_score.2.2 ("a".data) ("b".data) (by decide) (by decide)⟩

/-- Counterexample to C2 as frozen: the distinct pair of strings A and a
scores exactly 10000, and the 330-character query q330 scores strictly
above 10000 against the distinct text t331, so 10000 is neither exclusive
to equal pairs nor the maximum attainable value. -/
theorem c2_counterexample :
    (("A".data : List Char) ≠ "a".data ∧ scoreMatch ("A".data) ("a".data) = 10000) ∧
    (q330 ≠ t331 ∧ 10000 < scoreMatch q330 t331) := by
  refine ⟨⟨by decide, scoreMatch_eq_exact (by decide)⟩, ⟨by decide, ?_⟩⟩
  rw [scoreMatch_eq_fuzzy (m := 329) (n := 330) (by decide) (by decide) (by decide)
    (by decide) (by decide) (by decide)]
  rw [show ((lower t331).length) = 331 from by decide]
  norm_num

/-! Claims about recordUsage, the confirm key, and filter conservativity. -/

/-- C7: recording usage of a skill puts a fresh record for it at the front,
with count one above the count of the first existing record of the same
name or one when none exists, removes every other record of that name, cuts
the list to at most eight records from the tail, and keeps the relative
order of all other records. -/
theorem c7_recordUsage_behaviour (recents : List SkillUsage) (skill : Skill) (now : Nat) :
    (recents.find? (fun r => r.name == skill.name) = none →
      recordUsage recents skill now =
        ⟨skill.name, skill.ns, now, 1⟩ :: recents.take 7) ∧
    (∀ r0, recents.find? (fun r => r.name == skill.name) = some r0 →
      recordUsage recents skill now =
        ⟨skill.name, skill.ns, now, r0.count + 1⟩ ::
          (recents.filter (fun r => !(r.name == skill.name))).take 7) ∧
    (recordUsage recents skill now).length ≤ MAX_RECENTS ∧
    List.Sublist ((recordUsage recents skill now).drop 1) recents ∧
    ((recordUsage recents skill now).filter (fun r => r.name == skill.name)).length = 1 := by
  have hfilter_false : ∀ r ∈ recents.filter (fun r => !(r.name == skill.name)),
      (r.name == skill.name) = false := by
    intro r hr
    have := List.of_mem_filter hr
    simpa using this
  have hshape : recordUsage recents skill now =
      ⟨skill.name, skill.ns, now,
        (match recents.find? (fun r => r.name == skill.name) with
          | some r => r.count
          | none => 0) + 1⟩ ::
        (recents.filter (fun r => !(r.name == skill.name))).take 7 := by
    unfold recordUsage MAX_RECENTS
    rw [List.take_succ_cons]
  refine ⟨?_, ?_, ?_, ?_, ?_⟩
  · intro hnone
    rw [hshape, hnone]
    have : recents.filter (fun r => !(r.name == skill.name)) = recents := by
      apply List.filter_eq_self.mpr
      intro a ha
      have := List.find?_eq_none.mp hnone a ha
      simpa using this
    rw [this]
  · intro r0 hsome
    rw [hshape, hsome]
  · rw [hshape]
    simp only [List.length_cons, MAX_RECENTS]
    have := List.length_take_le 7 (recents.filter (fun r => !(r.name == skill.name)))
    omega
  · rw [hshape]
    simp only [List.drop_one, List.tail_cons]
    exact (List.take_sublist _ _).trans (List.filter_sublist _)
  · rw [hshape]
    rw [List.filter_cons_of_pos (by simp)]
    have hnil : ((recents.filter (fun r => !(r.name == skill.name))).take 7).filter
        (fun r => r.name == skill.name) = [] := by
      apply List.filter_eq_nil_iff.mpr
      intro a ha
      have hmem := (List.take_sublist _ _).mem ha
      simp [hfilter_false a hmem]
    rw [hnil]
    rfl

/-- Witness for C7: recording the already-recorded skill a at time 9 moves
it to the front with count 3 and timestamp 9 and leaves no duplicate. -/
theorem c7_recordUsage_behaviour_witness :
    recordUsage recentsW skillW 9 = [⟨"a".data, "x".data, 9, 3⟩] :=
  ((c7_recordUsage_behaviour recentsW skillW 9).2.1 ⟨"a".data, "x".data, 5, 2⟩
    (by decide)).trans (by decide)

/-- C9: with an entry under the cursor, the confirm key yields the unqueue
action exactly when the name of that entry equals the queued item name, and
yields the select action for the same entry whenever the queued item name
is absent or different. -/
theorem c9_confirm_semantics (s : PaletteRenderState) (sk : Skill) (ns : List Char)
    (h : s.displayItems[s.selectedIndex]? = some (.entry sk ns)) :
    ((handlePaletteInput s .enter).2 = some (.unqueue sk) ↔
      s.queuedSkillName = some sk.name) ∧
    (s.queuedSkillName ≠ some sk.name →
      (handlePaletteInput s .enter).2 = some (.select sk)) := by
  unfold handlePaletteInput
  rw [h]
  by_cases hq : some sk.name = s.queuedSkillName
  · simp only [hq, if_true]
    simp [hq.symm]
  · simp only [hq, if_false]
    constructor
    · simp only [Option.some.injEq]
      constructor
      · intro hcontra
        exact absurd hcontra (by simp)
      · intro heq
        exact absurd heq.symm hq
    · intro _
      trivial

/-- Witness for C9: a session whose cursor rests on the fizzy-cli entry
while fizzy-cli is queued answers the confirm key with the unqueue
action. -/
theorem c9_confirm_semantics_witness :
    (handlePaletteInput
      ⟨demoCatalog, [.entry fizzySkill ("tools".data)], 0, [],
        some ("fizzy-cli".data), []⟩ .enter).2 =
      some (.unqueue fizzySkill) :=
  (c9_confirm_semantics _ fizzySkill ("tools".data) (by decide)).1.mpr (by decide)

theorem count_rankByScore_le (l : List Skill) (f : Skill → ℚ) (s : Skill) :
    (rankByScore l f).count s ≤ l.count s := by
  unfold rankByScore
  have hperm := (sortLe_perm (fun a b : Skill × ℚ => decide (b.2 ≤ a.2))
    ((l.map (fun skill => (skill, f skill))).filter (fun p => decide (0 < p.2)))).map Prod.fst
  rw [hperm.count_eq s]
  have hsub := (List.filter_sublist (l.map (fun skill => (skill, f skill)))
    (p := fun p => decide (0 < p.2))).map Prod.fst
  have hid : ∀ m : List Skill, ((m.map (fun skill => (skill, f skill))).map Prod.fst) = m := by
    intro m
    induction m with
    | nil => rfl
    | cons a t ih => simp only [List.map_cons, ih]
  rw [hid l] at hsub
  exact hsub.count_le s

theorem count_filterNoColon_le (skills : List Skill) (lowerQuery : List Char) (s : Skill) :
    (filterNoColon skills lowerQuery).count s ≤ skills.count s := by
  unfold filterNoColon
  split_ifs with h1
  · exact (List.filter_sublist skills).count_le s
  · rcases hm : (dedupKeepFirst (skills.map (fun s => lower s.ns))).filter
        (fun ns => lowerQuery.isPrefixOf ns) with - | ⟨ns0, tl⟩
    · simp only [hm]
      exact count_rankByScore_le _ _ _
    · cases tl with
      | nil =>
        simp only [hm]
        exact (List.filter_sublist skills).count_le s
      | cons b tl2 =>
        simp only [hm]
        exact count_rankByScore_le _ _ _

theorem count_filterSkills_le (skills : List Skill) (query : List Char) (s : Skill) :
    (filterSkills skills query).count s ≤ skills.count s := by
  unfold filterSkills
  split_ifs with h1
  · exact Nat.le_refl _
  · rcases hidx : idxOfSub query ([':']) with - | i
    · simp only [hidx]
      exact count_filterNoColon_le _ _ _
    · simp only [hidx]
      by_cases hi : 0 < i
      · simp only [hi, if_true]
        split_ifs with hnq
        · exact (List.filter_sublist skills).count_le s
        · exact (count_rankByScore_le _ _ _).trans ((List.filter_sublist skills).count_le s)
      · simp only [hi, if_false]
        exact count_filterNoColon_le _ _ _

/-- C10: the filter never invents or duplicates items: each skill occurs in
the output of filterSkills at most as often as in the input, every output
element is an input element, and a duplicate-free catalog yields a
duplicate-free result. -/
theorem c10_filter_conservative (skills : List Skill) (query : List Char) (s : Skill) :
    (filterSkills skills query).count s ≤ skills.count s ∧
    (s ∈ filterSkills skills query → s ∈ skills) ∧
    (skills.Nodup → (filterSkills skills query).Nodup) := by
  refine ⟨count_filterSkills_le skills query s, ?_, ?_⟩
  · intro hmem
    have := List.count_pos_iff.mpr hmem
    exact List.count_pos_iff.mp (Nat.lt_of_lt_of_le this (count_filterSkills_le skills query s))
  · intro hnd
    apply List.nodup_iff_count_le_one.mpr
    intro a
    exact (count_filterSkills_le skills query a).trans
      (List.nodup_iff_count_le_one.mp hnd a)

/-- Witness for C10: on the demo catalog and the query fi, the count bound,
the membership direction and preservation of duplicate-freedom all hold at
the skill fizzy-cli. -/
theorem c10_filter_conservative_witness :
    (filterSkills demoCatalog ("fi".data)).count fizzySkill ≤
      demoCatalog.count fizzySkill ∧
    (filterSkills demoCatalog ("fi".data)).Nodup :=
  ⟨(c10_filter_conservative demoCatalog ("fi".data) fizzySkill).1,
    (c10_filter_conservative demoCatalog ("fi".data) fizzySkill).2.2 (by decide)⟩

/-! Claims about filterSkills branch behaviour and the display-mode switch. -/

theorem scoreMatch_eq_zero_of_unmatched {q t : List Char} {r m n : Nat}
    (h1 : ¬ lower t = lower q)
    (h2 : (lower q).isPrefixOf (lower t) = false)
    (h3 : idxOfSub (lower t) (lower q) = none)
    (hscan : fuzzyScan (lower t) (lower q) 0 0 0 = (r, m, n))
    (hq : r ≠ 0) :
    scoreMatch q t = 0 := by
  simp only [scoreMatch, if_neg h1, h2, Bool.false_eq_true, if_false, h3, hscan]
  rw [if_pos hq]

theorem filterSkills_of_trim_nil (skills : List Skill) {query : List Char}
    (h : trimChars query = []) : filterSkills skills query = skills := by
  unfold filterSkills
  rw [if_pos h]

theorem rankByScore_singleton (s : Skill) (f : Skill → ℚ) (h : 0 < f s) :
    rankByScore [s] f = [s] := by
  unfold rankByScore
  rw [List.map_cons, List.map_nil, List.filter_cons_of_pos (by simpa using h),
    List.filter_nil]
  rfl

theorem rankByScore_nil_of_nonpos (l : List Skill) (f : Skill → ℚ)
    (h : ∀ s ∈ l, ¬ 0 < f s) : rankByScore l f = [] := by
  unfold rankByScore
  have hfil : (l.map (fun skill => (skill, f skill))).filter
      (fun p => decide (0 < p.2)) = [] := by
    apply List.filter_eq_nil_iff.mpr
    intro p hp
    rcases List.mem_map.mp hp with ⟨s, hs, rfl⟩
    simpa using h s hs
  rw [hfil]
  rfl

theorem mem_rankByScore_of_pos {l : List Skill} {f : Skill → ℚ} {s : Skill}
    (hs : s ∈ l) (hpos : 0 < f s) : s ∈ rankByScore l f := by
  unfold rankByScore
  apply List.mem_map.mpr
  refine ⟨(s, f s), ?_, rfl⟩
  apply mem_sortLe.mpr
  apply List.mem_filter.mpr
  exact ⟨List.mem_map.mpr ⟨s, hs, rfl⟩, by simpa using hpos⟩

/-- C3 (amended): for every query whose first colon sits at a positive
index, filterSkills behaves exactly as the claim describes: it splits at
that colon, restricts to skills whose lowercased namespace starts with the
lowercased part before the colon, returns the restricted set unranked when
the part after the colon trims to empty, and otherwise returns the
positively scored restricted skills sorted descending by the maximum of
the name score and three tenths of the description score.  A query whose
first colon sits at index zero is instead handled by the general path, see
the counterexample. -/
theorem c3_colon_scoped_filtering (skills : List Skill) (query : List Char) (i : Nat)
    (hidx : idxOfSub query ([':']) = some i) (hi : 0 < i) :
    filterSkills skills query = filterColonSpec skills query := by
  have hmem : (':') ∈ query := by
    rcases idxOfSub_some hidx with ⟨hpre, -⟩
    rcases List.isPrefixOf_iff_prefix.mp hpre with ⟨t, ht⟩
    have : (':') ∈ query.drop i := by
      rw [← ht]
      exact List.mem_cons_self _ _
    exact List.mem_of_mem_drop this
  have htrim : trimChars query ≠ [] := trimChars_ne_nil_of_colon hmem
  unfold filterSkills filterColonSpec
  rw [if_neg htrim]
  simp only [hidx]
  rw [if_pos hi]

/-- Witness for C3: the specification example, namely the query
marketing:ad on the demo catalog, returns exactly the ad-creative
skill. -/
theorem c3_colon_scoped_filtering_witness :
    filterSkills demoCatalog ("marketing:ad".data) = [adSkill] := by
  rw [c3_colon_scoped_filtering demoCatalog ("marketing:ad".data) 9 (by decide) (by decide)]
  unfold filterColonSpec
  rw [show idxOfSub ("marketing:ad".data) ([':']) = some 9 from by decide]
  simp only
  rw [if_neg (by decide)]
  rw [show (demoCatalog.filter (fun s =>
    (lower (("marketing:ad".data).take 9)).isPrefixOf (lower s.ns))) = [adSkill] from by decide]
  apply rankByScore_singleton
  have hname : scoreMatch (trimChars (("marketing:ad".data).drop 10)) adSkill.name =
      5000 + ((2 : ℚ) / 11) * 100 := by
    rw [show trimChars (("marketing:ad".data).drop 10) = "ad".data from by decide]
    rw [scoreMatch_eq_prefixTier (by decide) (by decide)]
    rw [show ((lower ("ad".data)).length) = 2 from by decide,
      show ((lower (adSkill.name)).length) = 11 from by decide]
    norm_num
  have : (0 : ℚ) < 5000 + ((2 : ℚ) / 11) * 100 := by norm_num
  calc (0 : ℚ) < 5000 + ((2 : ℚ) / 11) * 100 := this
    _ = scoreMatch (trimChars (("marketing:ad".data).drop 10)) adSkill.name := hname.symm
    _ ≤ _ := le_max_left _ _

/-- Counterexample to C3 as frozen: the query that is a colon followed by
ad contains a colon, and on the one-skill catalog holding skZZ the
behaviour the claim describes keeps skZZ through its description score,
while filterSkills routes the query through the general path and returns
the empty list. -/
theorem c3_counterexample :
    ((':') ∈ (":ad".data : List Char)) ∧
    filterColonSpec [skZZ] (":ad".data) = [skZZ] ∧
    filterSkills [skZZ] (":ad".data) = [] := by
  refine ⟨by decide, ?_, ?_⟩
  · unfold filterColonSpec
    rw [show idxOfSub (":ad".data) ([':']) = some 0 from by decide]
    simp only
    rw [if_neg (by decide)]
    rw [show (([skZZ] : List Skill).filter (fun s =>
      (lower ((":ad".data).take 0)).isPrefixOf (lower s.ns))) = [skZZ] from by decide]
    apply rankByScore_singleton
    have hdesc : scoreMatch (trimChars ((":ad".data).drop 1)) skZZ.description =
        5000 + ((2 : ℚ) / 8) * 100 := by
      rw [show trimChars ((":ad".data).drop 1) = "ad".data from by decide]
      rw [scoreMatch_eq_prefixTier (by decide) (by decide)]
      rw [show ((lower ("ad".data)).length) = 2 from by decide,
        show ((lower (skZZ.description)).length) = 8 from by decide]
      norm_num
    have hpos : (0 : ℚ) < scoreMatch (trimChars ((":ad".data).drop 1)) skZZ.description
        * (3 / 10) := by
      rw [hdesc]
      norm_num
    exact lt_of_lt_of_le hpos (le_max_right _ _)
  · have step1 : filterSkills [skZZ] (":ad".data) =
        filterNoColon [skZZ] (trimChars (lower (":ad".data))) := by
      unfold filterSkills
      rw [if_neg (by decide)]
      rw [show idxOfSub (":ad".data) ([':']) = some 0 from by decide]
      simp only
      rw [if_neg (by decide)]
    rw [step1, show trimChars (lower (":ad".data)) = ":ad".data from by decide]
    unfold filterNoColon
    rw [if_neg (by decide)]
    rw [show ((dedupKeepFirst (([skZZ] : List Skill).map (fun s => lower s.ns))).filter
      (fun ns => (":ad".data).isPrefixOf ns)) = ([] : List (List Char)) from by decide]
    simp only
    apply rankByScore_nil_of_nonpos
    intro s hs
    rcases List.mem_singleton.mp hs with rfl
    have hname : scoreMatch (":ad".data) skZZ.name = 0 := by
      apply scoreMatch_eq_zero_of_unmatched (r := 3) (m := 0) (n := 0)
        (by decide) (by decide) (by decide) (by decide) (by decide)
    have hns : scoreMatch (":ad".data) (skZZ.ns ++ ':' :: skZZ.name) = 0 := by
      apply scoreMatch_eq_zero_of_unmatched (r := 2) (m := 1) (n := 1)
        (by decide) (by decide) (by decide) (by decide) (by decide)
    have hdesc : ((idxOfSub (lower skZZ.description) (":ad".data)).isSome : Prop) = False := by
      rw [show idxOfSub (lower skZZ.description) (":ad".data) = none from by decide]
      simp
    rw [hname, hns, if_neg (by rw [show idxOfSub (lower skZZ.description)
      (":ad".data) = none from by decide]; simp)]
    norm_num

/-- C4 (amended): for every colon-free query that is not entirely
whitespace, if some item of the catalog has its lowercased namespace equal
to the lowercased whitespace-trimmed query, then filterSkills returns
exactly the items of that namespace, unranked, regardless of any name or
description matches elsewhere.  The comparison uses the trimmed query; a
padded query is not compared verbatim, see the counterexample. -/
theorem c4_exact_namespace_priority (skills : List Skill) (query : List Char)
    (htrim : trimChars query ≠ []) (hnc : (':') ∉ query)
    (hex : ∃ s ∈ skills, lower s.ns = trimChars (lower query)) :
    filterSkills skills query =
      skills.filter (fun s => lower s.ns == trimChars (lower query)) := by
  obtain ⟨s0, hs0, hns0⟩ := hex
  have hidx : idxOfSub query ([':']) = none := idxOfSub_none_of_not_mem hnc
  have step1 : filterSkills skills query =
      filterNoColon skills (trimChars (lower query)) := by
    unfold filterSkills
    rw [if_neg htrim, hidx]
  rw [step1]
  unfold filterNoColon
  rw [if_pos ?hne]
  case hne =>
    apply List.ne_nil_of_mem (a := s0)
    exact List.mem_filter.mpr ⟨hs0, by simpa using hns0⟩

/-- Witness for C4: the specification example, namely the query search on
the demo catalog, returns exactly the brave-search skill. -/
theorem c4_exact_namespace_priority_witness :
    filterSkills demoCatalog ("search".data) = [braveSkill] :=
  (c4_exact_namespace_priority demoCatalog ("search".data) (by decide) (by decide)
    ⟨braveSkill, by decide, by decide⟩).trans (by decide)

/-- Counterexample to C4 as frozen: the query of a space followed by x is
colon-free and not whitespace-only, and the namespace of skPadded equals it
case-insensitively without trimming, yet filterSkills does not return
exactly the items of that namespace: the general scoring path also admits
skXylo. -/
theorem c4_counterexample :
    ((':') ∉ (" x".data : List Char)) ∧ trimChars (" x".data) ≠ [] ∧
    skPadded ∈ [skPadded, skXylo] ∧ lower skPadded.ns = lower (" x".data) ∧
    filterSkills [skPadded, skXylo] (" x".data) ≠ [skPadded] := by
  refine ⟨by decide, by decide, by decide, by decide, ?_⟩
  intro hEq
  have step1 : filterSkills [skPadded, skXylo] (" x".data) =
      filterNoColon [skPadded, skXylo] (trimChars (lower (" x".data))) := by
    unfold filterSkills
    rw [if_neg (by decide), idxOfSub_none_of_not_mem (by decide)]
  have step2 : filterNoColon [skPadded, skXylo] ("x".data) =
      rankByScore [skPadded, skXylo] (fun skill =>
        max (max (scoreMatch ("x".data) skill.name)
                 (scoreMatch ("x".data) (skill.ns ++ ':' :: skill.name) * (9 / 10)))
            (if (idxOfSub (lower skill.description) ("x".data)).isSome
             then 500 + ((("x".data).length : ℚ) / ((skill.description).length : ℚ)) * 100
             else 0)) := by
    unfold filterNoColon
    rw [if_neg (by decide)]
    rw [show ((dedupKeepFirst (([skPadded, skXylo] : List Skill).map (fun s => lower s.ns))).filter
      (fun ns => ("x".data).isPrefixOf ns)) = ([] : List (List Char)) from by decide]
  have hmem : skXylo ∈ filterSkills [skPadded, skXylo] (" x".data) := by
    rw [step1, show trimChars (lower (" x".data)) = "x".data from by decide, step2]
    apply mem_rankByScore_of_pos (by decide)
    have hname : scoreMatch ("x".data) skXylo.name = 5000 + ((1 : ℚ) / 9) * 100 := by
      rw [scoreMatch_eq_prefixTier (by decide) (by decide)]
      rw [show ((lower ("x".data)).length) = 1 from by decide,
        show ((lower (skXylo.name)).length) = 9 from by decide]
      norm_num
    have hpos : (0 : ℚ) < scoreMatch ("x".data) skXylo.name := by
      rw [hname]
      norm_num
    exact lt_of_lt_of_le hpos ((le_max_left _ _).trans (le_max_left _ _))
  rw [hEq] at hmem
  exact absurd hmem (by decide)

/-- C5 (amended): after a character append or an erase of the last
character, the display list is the flat ranked entry list of the filter
output, one entry per filtered skill tagged with its own namespace and
with no headers, whenever the resulting query is not entirely whitespace;
and it is the grouped display list over the full catalog plus recents
whenever the resulting query is empty or whitespace-only.  The source
branches on the trimmed query, not on emptiness, see the
counterexample. -/
theorem c5_display_mode_switch :
    (∀ (s : PaletteRenderState) (c : Char), 32 ≤ c.toNat →
      (trimChars (s.query ++ [c]) ≠ [] →
        ((handlePaletteInput s (.char c)).1).displayItems =
          (filterSkills s.allSkills (s.query ++ [c])).map
            (fun sk => DisplayItem.entry sk sk.ns)) ∧
      (trimChars (s.query ++ [c]) = [] →
        ((handlePaletteInput s (.char c)).1).displayItems =
          buildDisplayList s.allSkills s.recents)) ∧
    (∀ s : PaletteRenderState, s.query ≠ [] →
      (trimChars (s.query.dropLast) ≠ [] →
        ((handlePaletteInput s .backspace).1).displayItems =
          (filterSkills s.allSkills (s.query.dropLast)).map
            (fun sk => DisplayItem.entry sk sk.ns)) ∧
      (trimChars (s.query.dropLast) = [] →
        ((handlePaletteInput s .backspace).1).displayItems =
          buildDisplayList s.allSkills s.recents)) := by
  constructor
  · intro s c hc
    have hstate : (handlePaletteInput s (.char c)).1 =
        updateFilter { s with query := s.query ++ [c] } := by
      simp only [handlePaletteInput]
      rw [if_pos hc]
    constructor
    · intro ht
      rw [hstate]
      unfold updateFilter
      simp only [if_pos ht]
    · intro ht
      rw [hstate]
      unfold updateFilter
      simp only [ht]
      rw [if_neg (by simp), filterSkills_of_trim_nil _ ht]
  · intro s hq
    have hstate : (handlePaletteInput s .backspace).1 =
        updateFilter { s with query := s.query.dropLast } := by
      simp only [handlePaletteInput]
      rw [if_pos hq]
    constructor
    · intro ht
      rw [hstate]
      unfold updateFilter
      simp only [if_pos ht]
    · intro ht
      rw [hstate]
      unfold updateFilter
      simp only [ht]
      rw [if_neg (by simp), filterSkills_of_trim_nil _ ht]

/-- Witness for C5: appending the letter f to the fresh demo session
switches the display to the flat filtered entry list. -/
theorem c5_display_mode_switch_witness :
    ((handlePaletteInput (createPaletteState demoCatalog none []) (.char 'f')).1).displayItems =
      (filterSkills demoCatalog ((createPaletteState demoCatalog none []).query ++ ['f'])).map
        (fun sk => DisplayItem.entry sk sk.ns) :=
  (c5_display_mode_switch.1 (createPaletteState demoCatalog none []) 'f' (by decide)).1
    (by decide)

/-- Counterexample to C5 as frozen: appending a space to a fresh session
leaves the query non-empty, yet the display list is the grouped list with
its header rather than the flat entry list of the filter output. -/
theorem c5_counterexample :
    (runEvents (createPaletteState [skXylo] none []) [.char ' ']).query ≠ [] ∧
    (runEvents (createPaletteState [skXylo] none []) [.char ' ']).displayItems ≠
      (filterSkills [skXylo]
        ((runEvents (createPaletteState [skXylo] none []) [.char ' ']).query)).map
        (fun sk => DisplayItem.entry sk sk.ns) := by
  constructor
  · decide
  · decide

/-! Claim about the ordering of the grouped display list. -/

theorem entriesCovered_nil : entriesCovered [] := by
  intro l1 s ns l2 h
  exact absurd h (by simp)

theorem entriesCovered_append {la lb : List DisplayItem}
    (h1 : entriesCovered la) (h2 : entriesCovered lb) : entriesCovered (la ++ lb) := by
  intro l1 s ns l2 heq
  rcases List.append_eq_append_iff.mp heq with ⟨w, hc, hb⟩ | ⟨w, ha, hd⟩
  · have := h2 w s ns l2 hb
    rw [hc]
    exact List.mem_append_right la this
  · cases w with
    | nil =>
      simp only [List.nil_append] at hd
      have := h2 [] s ns l2 hd.symm
      exact absurd this (List.not_mem_nil _)
    | cons w0 w1 =>
      rcases List.cons.injEq _ _ _ _ ▸ hd with ⟨hw0, hl2⟩
      have := h1 l1 s ns w1 (by rw [ha, hw0])
      exact this

theorem entriesCovered_chunk (ns : List Char) (group : List Skill) :
    entriesCovered
      (DisplayItem.header ns :: group.map (fun s => DisplayItem.entry s ns)) := by
  intro l1 s ns2 l2 heq
  cases l1 with
  | nil => simp at heq
  | cons x l1t =>
    rw [List.cons_append] at heq
    injection heq with hx htl
    have hmem : DisplayItem.entry s ns2 ∈ group.map (fun s => DisplayItem.entry s ns) := by
      rw [htl]
      exact List.mem_append_right l1t (List.mem_cons_self _ _)
    rcases List.mem_map.mp hmem with ⟨g, -, hEq⟩
    injection hEq with hg hns
    rw [← hx, ← hns]
    exact List.mem_cons_self _ _

theorem entriesCovered_flat (nss : List (List Char)) (g : List Char → List Skill) :
    entriesCovered (nss.flatMap (fun ns =>
      DisplayItem.header ns :: (g ns).map (fun s => DisplayItem.entry s ns))) := by
  induction nss with
  | nil =>
    simp only [List.flatMap_nil]
    exact entriesCovered_nil
  | cons a tl ih =>
    simp only [List.flatMap_cons]
    exact entriesCovered_append (entriesCovered_chunk a (g a)) ih

theorem entriesCovered_recentBlock (skills : List Skill) (recents : List SkillUsage) :
    entriesCovered (recentBlock skills recents) := by
  unfold recentBlock
  split_ifs with h1 h2
  · exact entriesCovered_nil
  · exact entriesCovered_nil
  · exact entriesCovered_chunk recentTag _

theorem entriesCovered_groupedBlock (skills : List Skill) (recents : List SkillUsage) :
    entriesCovered (groupedBlock skills recents) := by
  unfold groupedBlock
  exact entriesCovered_flat _ _

theorem headerLabels_append (la lb : List DisplayItem) :
    headerLabels (la ++ lb) = headerLabels la ++ headerLabels lb := by
  unfold headerLabels
  exact List.filterMap_append _ _ _

theorem headerLabels_entries (ns : List Char) (group : List Skill) :
    headerLabels (group.map (fun s => DisplayItem.entry s ns)) = [] := by
  induction group with
  | nil => rfl
  | cons a tl ih =>
    simp only [List.map_cons, headerLabels, List.filterMap_cons] at ih ⊢
    exact ih

theorem headerLabels_flat (nss : List (List Char)) (g : List Char → List Skill) :
    headerLabels (nss.flatMap (fun ns =>
      DisplayItem.header ns :: (g ns).map (fun s => DisplayItem.entry s ns))) = nss := by
  induction nss with
  | nil => rfl
  | cons a tl ih =>
    simp only [List.flatMap_cons]
    rw [List.cons_append, show headerLabels (DisplayItem.header a ::
      ((g a).map (fun s => DisplayItem.entry s a) ++
        tl.flatMap (fun ns => DisplayItem.header ns ::
          (g ns).map (fun s => DisplayItem.entry s ns)))) =
      a :: headerLabels ((g a).map (fun s => DisplayItem.entry s a) ++
        tl.flatMap (fun ns => DisplayItem.header ns ::
          (g ns).map (fun s => DisplayItem.entry s ns))) from rfl]
    rw [headerLabels_append, headerLabels_entries, List.nil_append, ih]

theorem headerLabels_groupedBlock (skills : List Skill) (recents : List SkillUsage) :
    headerLabels (groupedBlock skills recents) = nsKeysSorted skills recents := by
  unfold groupedBlock
  exact headerLabels_flat _ _

theorem nsKeysSorted_nodup (skills : List Skill) (recents : List SkillUsage) :
    (nsKeysSorted skills recents).Nodup := by
  unfold nsKeysSorted
  exact (sortLe_perm nsLeB _).nodup_iff.mpr (nodup_dedupKeepFirst _)

theorem nsKeysSorted_pairwise (skills : List Skill) (recents : List SkillUsage) :
    (nsKeysSorted skills recents).Pairwise
      (fun a b => b = otherTag ∨ (a ≠ otherTag ∧ lexLt a b = true)) := by
  have hpw : (nsKeysSorted skills recents).Pairwise
      (fun a b => nsLeB a b = true ∨ a = b) := by
    unfold nsKeysSorted
    apply sortLe_pairwise nsLeB nsLeB_trans
    intro a _ b _
    by_cases hab : a = b
    · exact Or.inr (Or.inr hab)
    · rcases nsLeB_total a b hab with h | h
      · exact Or.inl h
      · exact Or.inr (Or.inl h)
  have hnd : (nsKeysSorted skills recents).Nodup := nsKeysSorted_nodup skills recents
  have := hpw.and hnd
  apply this.imp
  intro a b hab
  rcases hab with ⟨hle | hEq, hne⟩
  · unfold nsLeB at hle
    by_cases ha : a = otherTag
    · rw [if_pos ha] at hle
      exact Bool.noConfusion hle
    · rw [if_neg ha] at hle
      by_cases hb : b = otherTag
      · exact Or.inl hb
      · rw [if_neg hb] at hle
        refine Or.inr ⟨ha, ?_⟩
        simp only [lexLe, Bool.not_eq_true'] at hle
        cases hab2 : lexLt a b with
        | true => rfl
        | false => exact absurd (lexLt_connex a b hab2 hle) hne
  · exact absurd hEq hne

theorem entriesTagged_append (ns : List Char) (la lb : List DisplayItem) :
    entriesTagged ns (la ++ lb) = entriesTagged ns la ++ entriesTagged ns lb := by
  unfold entriesTagged
  exact List.filterMap_append _ _ _

theorem entriesTagged_entries_self (ns : List Char) (group : List Skill) :
    entriesTagged ns (group.map (fun s => DisplayItem.entry s ns)) = group := by
  induction group with
  | nil => rfl
  | cons a tl ih =>
    simp only [List.map_cons, entriesTagged, List.filterMap_cons] at ih ⊢
    simp [ih]

theorem entriesTagged_entries_other {ns ns2 : List Char} (group : List Skill)
    (h : ns2 ≠ ns) :
    entriesTagged ns (group.map (fun s => DisplayItem.entry s ns2)) = [] := by
  induction group with
  | nil => rfl
  | cons a tl ih =>
    simp only [List.map_cons, entriesTagged, List.filterMap_cons] at ih ⊢
    simp [h, ih]

theorem entriesTagged_flat (nss : List (List Char)) (g : List Char → List Skill)
    (ns : List Char) (hnd : nss.Nodup) :
    entriesTagged ns (nss.flatMap (fun k =>
      DisplayItem.header k :: (g k).map (fun s => DisplayItem.entry s k))) =
      if ns ∈ nss then g ns else [] := by
  induction nss with
  | nil => simp [entriesTagged]
  | cons a tl ih =>
    rcases List.nodup_cons.mp hnd with ⟨hna, hntl⟩
    simp only [List.flatMap_cons]
    rw [List.cons_append]
    rw [show entriesTagged ns (DisplayItem.header a ::
      ((g a).map (fun s => DisplayItem.entry s a) ++ tl.flatMap (fun k =>
        DisplayItem.header k :: (g k).map (fun s => DisplayItem.entry s k)))) =
      entriesTagged ns ((g a).map (fun s => DisplayItem.entry s a) ++ tl.flatMap (fun k =>
        DisplayItem.header k :: (g k).map (fun s => DisplayItem.entry s k))) from rfl]
    rw [entriesTagged_append, ih hntl]
    by_cases ha : a = ns
    · subst ha
      rw [entriesTagged_entries_self]
      rw [if_neg (fun h => hna h), if_pos (List.mem_cons_self a tl)]
      simp
    · rw [entriesTagged_entries_other _ ha]
      simp only [List.nil_append]
      by_cases hmem : ns ∈ tl
      · rw [if_pos hmem, if_pos (List.mem_cons_of_mem a hmem)]
      · rw [if_neg hmem, if_neg (by
          intro hc
          rcases List.mem_cons.mp hc with hc | hc
          · exact ha hc.symm
          · exact hmem hc)]

theorem entriesTagged_groupedBlock (skills : List Skill) (recents : List SkillUsage)
    (ns : List Char) :
    entriesTagged ns (groupedBlock skills recents) =
      if ns ∈ nsKeysSorted skills recents then
        sortLe (fun a b => lexLe a.name b.name)
          ((remainingSkills skills recents).filter (fun s => s.ns == ns))
      else [] := by
  unfold groupedBlock
  exact entriesTagged_flat _ _ ns (nsKeysSorted_nodup skills recents)

/-- C6: in every display list built by buildDisplayList, no entry precedes
the header of its group; the namespace group headers (the headers of the
grouped section that follows the recents section) appear in strictly
increasing alphabetical order except that the group named other comes after
every other group when present; and within each namespace group the entries
are ordered alphabetically by skill name.  The recents section is the
separate recency-ordered block of the specification, not a namespace
group. -/
theorem c6_buildDisplayList_order (skills : List Skill) (recents : List SkillUsage) :
    entriesCovered (buildDisplayList skills recents) ∧
    (headerLabels (groupedBlock skills recents)).Pairwise
      (fun a b => b = otherTag ∨ (a ≠ otherTag ∧ lexLt a b = true)) ∧
    (∀ ns, (entriesTagged ns (groupedBlock skills recents)).Pairwise
      (fun s t => lexLe s.name t.name = true)) := by
  refine ⟨?_, ?_, ?_⟩
  · unfold buildDisplayList
    exact entriesCovered_append (entriesCovered_recentBlock skills recents)
      (entriesCovered_groupedBlock skills recents)
  · rw [headerLabels_groupedBlock]
    exact nsKeysSorted_pairwise skills recents
  · intro ns
    rw [entriesTagged_groupedBlock]
    by_cases hmem : ns ∈ nsKeysSorted skills recents
    · rw [if_pos hmem]
      have hpw := sortLe_pairwise (fun a b : Skill => lexLe a.name b.name)
        (fun a b c h1 h2 => lexLe_trans h1 h2)
        ((remainingSkills skills recents).filter (fun s => s.ns == ns))
        (fun a _ b _ => by
          rcases lexLe_total a.name b.name with h | h
          · exact Or.inl h
          · exact Or.inr (Or.inl h))
      apply hpw.imp
      intro a b hab
      rcases hab with h | rfl
      · exact h
      · exact lexLe_refl a.name
    · rw [if_neg hmem]
      simp

/-- Witness for C6: in the display list of the demo catalog the brave
search entry is preceded by the header of its group, so that header occurs
in the part of the list before the entry. -/
theorem c6_buildDisplayList_order_witness :
    DisplayItem.header ("search".data) ∈
      [DisplayItem.header ("marketing".data), DisplayItem.entry adSkill ("marketing".data),
        DisplayItem.header ("search".data)] :=
  (c6_buildDisplayList_order demoCatalog []).1
    [DisplayItem.header ("marketing".data), DisplayItem.entry adSkill ("marketing".data),
      DisplayItem.header ("search".data)]
    braveSkill ("search".data)
    [DisplayItem.header ("tools".data), DisplayItem.entry fizzySkill ("tools".data)]
    (by decide)

/-! Claim about the cursor invariant of the session state machine. -/

theorem lt_length_of_getElem?_some {α : Type} {l : List α} {i : Nat} {x : α}
    (h : l[i]? = some x) : i < l.length := by
  by_contra hlen
  rw [List.getElem?_eq_none (by omega)] at h
  exact Option.noConfusion h

theorem getD_eq_of_getElem?_some {α : Type} {l : List α} {i : Nat} {x : α}
    (h : l[i]? = some x) (d : α) : l.getD i d = x := by
  rw [List.getD_eq_getElem?_getD, h]
  rfl

theorem mem_of_getElem?_some {α : Type} {l : List α} {i : Nat} {x : α}
    (h : l[i]? = some x) : x ∈ l := by
  rcases List.getElem?_eq_some_iff.mp h with ⟨hlt, rfl⟩
  exact List.getElem_mem hlt

theorem any_isSkillB_false_iff (l : List DisplayItem) :
    l.any isSkillB = false ↔ ∀ x ∈ l, isSkillB x = false := by
  constructor
  · intro h x hx
    cases hpx : isSkillB x with
    | false => rfl
    | true =>
      have : l.any isSkillB = true := List.any_eq_true.mpr ⟨x, hx, hpx⟩
      rw [this] at h
      exact Bool.noConfusion h
  · intro h
    cases hany : l.any isSkillB with
    | false => rfl
    | true =>
      rcases List.any_eq_true.mp hany with ⟨x, hx, hpx⟩
      rw [h x hx] at hpx
      exact Bool.noConfusion hpx

theorem firstSkillIndexN_spec (items : List DisplayItem) :
    (items.any isSkillB = true →
      firstSkillIndexN items < items.length ∧
      isSkillB (items.getD (firstSkillIndexN items) (.header [])) = true) ∧
    (items.any isSkillB = false → firstSkillIndexN items = 0) := by
  constructor
  · intro hany
    rcases List.any_eq_true.mp hany with ⟨x, hx, hpx⟩
    rcases Option.isSome_iff_exists.mp (firstIdx?_isSome_of_mem hx hpx) with ⟨i, hi⟩
    have hidx : firstSkillIndexN items = i := by
      unfold firstSkillIndexN
      rw [hi]
      rfl
    rcases firstIdx?_some hi with ⟨y, hy, hpy⟩
    rw [hidx]
    exact ⟨firstIdx?_lt_length hi, by rw [getD_eq_of_getElem?_some hy]; exact hpy⟩
  · intro hany
    unfold firstSkillIndexN
    cases hi : firstIdx? isSkillB items with
    | none => rfl
    | some i =>
      rcases firstIdx?_some hi with ⟨y, hy, hpy⟩
      have := (any_isSkillB_false_iff items).mp hany y (mem_of_getElem?_some hy)
      rw [this] at hpy
      exact Bool.noConfusion hpy

theorem nextSkillIndex_spec (items : List DisplayItem) (frm : Nat) (d : Bool) :
    (items.any isSkillB = true →
      nextSkillIndex items frm d < items.length ∧
      isSkillB (items.getD (nextSkillIndex items frm d) (.header [])) = true) ∧
    (items.any isSkillB = false → nextSkillIndex items frm d = 0) := by
  cases d with
  | true =>
    cases hf : findSkillFrom items (frm + 1) with
    | some i =>
      have hset : nextSkillIndex items frm true = i := by
        unfold nextSkillIndex
        rw [if_pos rfl, hf]
      rcases Option.map_eq_some'.mp hf with ⟨j, hj, hji⟩
      rcases firstIdx?_some hj with ⟨y, hy, hpy⟩
      rw [List.getElem?_drop] at hy
      have hiEq : i = (frm + 1) + j := by omega
      have hlt : i < items.length := by
        rw [hiEq]
        exact lt_length_of_getElem?_some hy
      constructor
      · intro _
        rw [hset]
        refine ⟨hlt, ?_⟩
        rw [hiEq, getD_eq_of_getElem?_some hy]
        exact hpy
      · intro hany
        have := (any_isSkillB_false_iff items).mp hany y
          (mem_of_getElem?_some (hiEq ▸ hy))
        rw [this] at hpy
        exact Bool.noConfusion hpy
    | none =>
      have hset : nextSkillIndex items frm true = firstSkillIndexN items := by
        unfold nextSkillIndex
        rw [if_pos rfl, hf]
      rw [hset]
      exact firstSkillIndexN_spec items
  | false =>
    cases hb : findSkillBefore items frm with
    | some i =>
      have hset : nextSkillIndex items frm false = i := by
        unfold nextSkillIndex
        rw [if_neg (by simp), hb]
      rcases Option.map_eq_some'.mp hb with ⟨j, hj, hji⟩
      rcases firstIdx?_some hj with ⟨y, hy, hpy⟩
      have hjlen : j < (items.take frm).length := by
        have := firstIdx?_lt_length hj
        rwa [List.length_reverse] at this
      rw [List.getElem?_reverse hjlen] at hy
      have hlt2 : (items.take frm).length - 1 - j < (items.take frm).length := by omega
      have htake : (items.take frm)[(items.take frm).length - 1 - j]? =
          items[(items.take frm).length - 1 - j]? := by
        rw [List.getElem?_take]
        rw [if_pos ?hcond]
        case hcond =>
          rw [List.length_take] at hlt2 ⊢
          omega
      rw [htake] at hy
      have hiEq : i = (items.take frm).length - 1 - j := hji.symm
      have hlt : i < items.length := by
        rw [hiEq]
        exact lt_length_of_getElem?_some hy
      constructor
      · intro _
        rw [hset]
        refine ⟨hlt, ?_⟩
        rw [hiEq, getD_eq_of_getElem?_some hy]
        exact hpy
      · intro hany
        have := (any_isSkillB_false_iff items).mp hany y
          (mem_of_getElem?_some (hiEq ▸ hy))
        rw [this] at hpy
        exact Bool.noConfusion hpy
    | none =>
      cases hl : lastSkillIdx items with
      | some i =>
        have hset : nextSkillIndex items frm false = i := by
          unfold nextSkillIndex
          rw [if_neg (by simp), hb, hl]
        rcases Option.map_eq_some'.mp hl with ⟨j, hj, hji⟩
        rcases firstIdx?_some hj with ⟨y, hy, hpy⟩
        have hjlen : j < items.length := by
          have := firstIdx?_lt_length hj
          rwa [List.length_reverse] at this
        rw [List.getElem?_reverse hjlen] at hy
        have hiEq : i = items.length - 1 - j := hji.symm
        have hlt : i < items.length := by omega
        constructor
        · intro _
          rw [hset]
          refine ⟨hlt, ?_⟩
          rw [hiEq, getD_eq_of_getElem?_some hy]
          exact hpy
        · intro hany
          have := (any_isSkillB_false_iff items).mp hany y
            (mem_of_getElem?_some (hiEq ▸ hy))
          rw [this] at hpy
          exact Bool.noConfusion hpy
      | none =>
        have hset : nextSkillIndex items frm false = 0 := by
          unfold nextSkillIndex
          rw [if_neg (by simp), hb, hl]
        constructor
        · intro hany
          rcases List.any_eq_true.mp hany with ⟨x, hx, hpx⟩
          have hnone : firstIdx? isSkillB items.reverse = none := by
            cases hr : firstIdx? isSkillB items.reverse with
            | none => rfl
            | some j =>
              have : lastSkillIdx items = some (items.length - 1 - j) := by
                unfold lastSkillIdx
                rw [hr]
                rfl
              rw [hl] at this
              exact Option.noConfusion this
          have := false_of_firstIdx?_none hnone x (List.mem_reverse.mpr hx)
          rw [this] at hpx
          exact Bool.noConfusion hpx
        · intro _
          exact hset

theorem buildDisplayList_eq_nil_of_no_entry (skills : List Skill)
    (recents : List SkillUsage)
    (h : (buildDisplayList skills recents).any isSkillB = false) :
    buildDisplayList skills recents = [] := by
  unfold buildDisplayList at h ⊢
  rw [List.any_append] at h
  rcases Bool.or_eq_false_iff.mp h with ⟨h1, h2⟩
  have hrb : recentBlock skills recents = [] := by
    unfold recentBlock at h1 ⊢
    split_ifs with hc1 hc2
    · rfl
    · rfl
    · exfalso
      rcases List.exists_mem_of_ne_nil _ hc2 with ⟨r, hr⟩
      have hmem : DisplayItem.entry r recentTag ∈
          DisplayItem.header recentTag ::
            (recents.filterMap (fun r => skills.find? (fun s => s.name == r.name))).map
              (fun s => DisplayItem.entry s recentTag) :=
        List.mem_cons_of_mem _ (List.mem_map.mpr ⟨r, hr, rfl⟩)
      rw [if_neg hc1, if_neg hc2] at h1
      have := (any_isSkillB_false_iff _).mp h1 _ hmem
      exact Bool.noConfusion this
  have hgb : groupedBlock skills recents = [] := by
    unfold groupedBlock at h2 ⊢
    cases hk : nsKeysSorted skills recents with
    | nil => rfl
    | cons k tl =>
      exfalso
      have hkmem : k ∈ nsKeysSorted skills recents := by
        rw [hk]
        exact List.mem_cons_self _ _
      have hk2 : k ∈ dedupKeepFirst ((remainingSkills skills recents).map (fun s => s.ns)) := by
        unfold nsKeysSorted at hkmem
        exact mem_sortLe.mp hkmem
      rcases List.mem_map.mp (mem_of_mem_dedupKeepFirst hk2) with ⟨s0, hs0, hns0⟩
      have hsf : s0 ∈ (remainingSkills skills recents).filter (fun s => s.ns == k) :=
        List.mem_filter.mpr ⟨hs0, by simp [hns0]⟩
      have hss : s0 ∈ sortLe (fun a b => lexLe a.name b.name)
          ((remainingSkills skills recents).filter (fun s => s.ns == k)) :=
        mem_sortLe.mpr hsf
      have hmem : DisplayItem.entry s0 k ∈ (nsKeysSorted skills recents).flatMap (fun ns =>
          DisplayItem.header ns ::
            (sortLe (fun a b => lexLe a.name b.name)
              ((remainingSkills skills recents).filter (fun s => s.ns == ns))).map
              (fun s => DisplayItem.entry s ns)) := by
        apply List.mem_flatMap.mpr
        exact ⟨k, hkmem, List.mem_cons_of_mem _ (List.mem_map.mpr ⟨s0, hss, rfl⟩)⟩
      have := (any_isSkillB_false_iff _).mp h2 _ hmem
      exact Bool.noConfusion this
  rw [hrb, hgb]
  rfl

theorem updateFilter_displayItems (s : PaletteRenderState) :
    (updateFilter s).displayItems =
      (if trimChars s.query ≠ [] then
        (filterSkills s.allSkills s.query).map (fun skill => DisplayItem.entry skill skill.ns)
      else buildDisplayList (filterSkills s.allSkills s.query) s.recents) := rfl

theorem updateFilter_selectedIndex (s : PaletteRenderState) :
    (updateFilter s).selectedIndex = firstSkillIndexN (updateFilter s).displayItems := rfl

theorem cursorInv_updateFilter (s : PaletteRenderState) : cursorInv (updateFilter s) := by
  unfold cursorInv
  rw [updateFilter_selectedIndex]
  constructor
  · intro hany
    exact (firstSkillIndexN_spec _).1 hany
  · intro hany
    refine ⟨(firstSkillIndexN_spec _).2 hany, ?_⟩
    rw [updateFilter_displayItems] at hany ⊢
    by_cases ht : trimChars s.query ≠ []
    · rw [if_pos ht] at hany ⊢
      cases hfl : filterSkills s.allSkills s.query with
      | nil => rfl
      | cons a tl =>
        exfalso
        rw [hfl] at hany
        have hmem : DisplayItem.entry a a.ns ∈
            (a :: tl).map (fun skill => DisplayItem.entry skill skill.ns) :=
          List.mem_map.mpr ⟨a, List.mem_cons_self _ _, rfl⟩
        have := (any_isSkillB_false_iff _).mp hany _ hmem
        exact Bool.noConfusion this
    · rw [if_neg ht] at hany ⊢
      exact buildDisplayList_eq_nil_of_no_entry _ _ hany

theorem cursorInv_create (skills : List Skill) (queued : Option (List Char))
    (recents : List SkillUsage) : cursorInv (createPaletteState skills queued recents) := by
  unfold cursorInv createPaletteState
  constructor
  · intro hany
    exact (firstSkillIndexN_spec _).1 hany
  · intro hany
    exact ⟨(firstSkillIndexN_spec _).2 hany,
      buildDisplayList_eq_nil_of_no_entry _ _ hany⟩

theorem handlePaletteInput_enter_state (s : PaletteRenderState) :
    (handlePaletteInput s .enter).1 = s := by
  rcases hx : s.displayItems[s.selectedIndex]? with _ | item
  · simp [handlePaletteInput, hx]
  · cases item with
    | header ns => simp [handlePaletteInput, hx]
    | entry sk ns =>
      simp only [handlePaletteInput, hx]
      split_ifs <;> rfl

theorem cursorInv_handle (s : PaletteRenderState) (k : KeyEvent) (h : cursorInv s) :
    cursorInv (handlePaletteInput s k).1 := by
  cases k with
  | escape => exact h
  | other => exact h
  | enter =>
    rw [handlePaletteInput_enter_state]
    exact h
  | up =>
    simp only [handlePaletteInput]
    unfold cursorInv
    constructor
    · intro hany
      exact (nextSkillIndex_spec s.displayItems s.selectedIndex false).1 hany
    · intro hany
      exact ⟨(nextSkillIndex_spec s.displayItems s.selectedIndex false).2 hany,
        (h.2 hany).2⟩
  | down =>
    simp only [handlePaletteInput]
    unfold cursorInv
    constructor
    · intro hany
      exact (nextSkillIndex_spec s.displayItems s.selectedIndex true).1 hany
    · intro hany
      exact ⟨(nextSkillIndex_spec s.displayItems s.selectedIndex true).2 hany,
        (h.2 hany).2⟩
  | backspace =>
    simp only [handlePaletteInput]
    split_ifs with hq
    · exact cursorInv_updateFilter _
    · exact h
  | char c =>
    simp only [handlePaletteInput]
    split_ifs with hc
    · exact cursorInv_updateFilter _
    · exact h

/-- C8: in every session state reachable from createPaletteState by any
sequence of input events, the cursor rests on an entry whenever the display
list holds at least one entry, and equals zero with an empty display list
whenever it holds none, so no transition ever leaves the cursor on a
header. -/
theorem c8_cursor_invariant (skills : List Skill) (queued : Option (List Char))
    (recents : List SkillUsage) (ks : List KeyEvent) :
    cursorInv (runEvents (createPaletteState skills queued recents) ks) := by
  have hgen : ∀ (ks : List KeyEvent) (s : PaletteRenderState),
      cursorInv s → cursorInv (runEvents s ks) := by
    intro ks
    induction ks with
    | nil => intro s h; exact h
    | cons k tl ih =>
      intro s h
      exact ih _ (cursorInv_handle s k h)
  exact hgen ks _ (cursorInv_create skills queued recents)

/-- Witness for C8: after one move-down event on the fresh demo session the
cursor rests on an entry of the display list. -/
theorem c8_cursor_invariant_witness :
    isSkillB ((runEvents (createPaletteState demoCatalog none []) [.down]).displayItems.getD
      (runEvents (createPaletteState demoCatalog none []) [.down]).selectedIndex
      (.header [])) = true :=
  ((c8_cursor_invariant demoCatalog none [] [.down]).1 (by decide)).2

end SkillPicker

